import Mathlib

/-!
# Verification of the cpio archive engine (`src/native/src/boot/cpio.rs`)

This file shallowly embeds the data model and algorithms of the Magisk cpio
archive engine and proves/refutes the frozen claims about it.

Modelling conventions:
* Byte buffers and strings are `List Nat` (each element a byte value).
  Rust `String` keys are modelled by their UTF-8 byte sequences; `BTreeMap<String, _>`
  ordering on Rust strings is byte-wise lexicographic, which is `lexLt` below.
* The `BTreeMap` is modelled as an association list kept sorted by `insertSorted`
  (strictly ascending keys is the representation invariant `SortedE`).
* Machine integers are `Nat`.  `mode_t`/`uid_t`/`gid_t` are `u32` in the source;
  theorems carry explicit `< 2 ^ 32` bounds where the wire format needs them.
* Fallible code returns `PResult`/`Except`/`Option`.  `PResult.crash` marks an
  out-of-bounds slice index or raw-pointer read (a Rust panic or undefined
  behaviour), as opposed to a returned `Err` (`PResult.fatal`).
* File/OS effects are abstracted: `Cpio.dump` produces the byte stream the Rust
  code writes to the output file; `Cpio.add` receives the content and file type
  that Rust reads from the filesystem.
-/

/-- A byte string (UTF-8 bytes of a Rust `String`, or raw buffer bytes). -/
abbrev Name := List Nat

/-- `CpioEntry` from the source: mode/uid/gid/rdevmajor/rdevminor and payload. -/
structure CpioEntry where
  mode : Nat
  uid : Nat
  gid : Nat
  rdevmajor : Nat
  rdevminor : Nat
  data : List Nat
deriving DecidableEq, Repr

abbrev Entries := List (Name × CpioEntry)

/-- `Cpio`: the in-memory archive, a `BTreeMap<String, CpioEntry>` modelled as an
association list ordered by `lexLt` (see `SortedE`). -/
structure Cpio where
  entries : Entries
deriving DecidableEq, Repr

/-- Result of running a fallible piece of Rust code.  `fatal` is a returned
`LoggedResult::Err`; `crash` is a panic / out-of-bounds read that the Rust code
can hit on malformed input (it is not a returned error). -/
inductive PResult (α : Type) where
  | ok (a : α)
  | fatal (msg : String)
  | crash
deriving DecidableEq, Repr

/-- Byte-wise lexicographic strict order on byte strings: the `Ord` instance of
Rust `String`/`[u8]` used by the `BTreeMap`. -/
def lexLt : Name → Name → Bool
  | [], [] => false
  | [], _ :: _ => true
  | _ :: _, [] => false
  | a :: as, b :: bs => a < b || (a == b && lexLt as bs)

/-- `BTreeMap::insert`: insert or replace, keeping keys in ascending order. -/
def insertSorted (k : Name) (v : CpioEntry) : Entries → Entries
  | [] => [(k, v)]
  | (k', v') :: rest =>
    if lexLt k k' then (k, v) :: (k', v') :: rest
    else if k = k' then (k, v) :: rest
    else (k', v') :: insertSorted k v rest

/-- `BTreeMap::get`: first association with the given key. -/
def lookupE (k : Name) : Entries → Option CpioEntry
  | [] => none
  | (k', v) :: rest => if k = k' then some v else lookupE k rest

/-- `BTreeMap::remove`: drop the (first) association with the given key. -/
def removeE (k : Name) : Entries → Entries
  | [] => []
  | (k', v) :: rest => if k' = k then rest else (k', v) :: removeE k rest

/-- Insert a list of (key, entry) pairs left-to-right (later entries override). -/
def insertList (es : Entries) (acc : Entries) : Entries :=
  es.foldl (fun m kv => insertSorted kv.1 kv.2 m) acc

/-- Representation invariant of the `BTreeMap` model: keys strictly ascending. -/
def SortedE (es : Entries) : Prop :=
  es.Pairwise (fun a b => lexLt a.1 b.1 = true)

/-- The 6-byte magic `"070701"`. -/
def magicB : Name := [48, 55, 48, 55, 48, 49]

/-- The bytes of `"."`. -/
def dotB : Name := [46]

/-- The bytes of `".."`. -/
def dotdotB : Name := [46, 46]

/-- The bytes of `"TRAILER!!!"`. -/
def trailerB : Name := [84, 82, 65, 73, 76, 69, 82, 33, 33, 33]

/-- `align_4` from the source: `(x + 3) & !3`, i.e. round up to a multiple of 4. -/
def align_4 (x : Nat) : Nat := (x + 3) / 4 * 4

/-- `norm_path` from the source: strip one leading `'/'` (`strip_prefix`) and then
one trailing `'/'` (`strip_suffix`).  `'/'` is byte 47; in valid UTF-8 a 47 byte
is always the character `'/'`. -/
def norm_path (p : Name) : Name :=
  let p1 := match p with
    | 47 :: rest => rest
    | other => other
  match p1.getLast? with
  | some 47 => p1.dropLast
  | _ => p1

/-- `n` zero bytes (`write_zeros` / padding). -/
def zeros (n : Nat) : List Nat := List.replicate n 0

/-- `data[i..i+n]` as a list (callers guard `i + n ≤ data.length` where Rust
indexing would panic). -/
def sliceAt (data : List Nat) (i n : Nat) : List Nat := (data.drop i).take n

/-- ASCII code of the lowercase hex digit for `d < 16` (as produced by `{:08x}`). -/
def hexChar (d : Nat) : Nat := if d < 10 then 48 + d else 87 + d

/-- Hex digits of `v`, least significant first, with explicit fuel (the fuel is
only consumed once per digit, so any fuel ≥ the digit count is enough). -/
def toHexLE : Nat → Nat → List Nat
  | 0, _ => []
  | _ + 1, 0 => []
  | f + 1, v + 1 => ((v + 1) % 16) :: toHexLE f ((v + 1) / 16)

/-- Hex digit values of `v`, least significant first (`v` itself is ample fuel). -/
def hexDigitsOf (v : Nat) : List Nat := toHexLE v v

/-- `format!("{:08x}", v)` as bytes: minimal lowercase hex digits of `v`
zero-padded on the left to (at least) width 8.  For `v < 2 ^ 32` this is exactly
8 bytes. -/
def hex8 (v : Nat) : List Nat :=
  let ds := (hexDigitsOf v).reverse.map hexChar
  List.replicate (8 - ds.length) 48 ++ ds

/-- `char::to_digit(16)` on a byte read as a `char`: hex digit value of an ASCII
byte, accepting `0-9`, `a-f`, `A-F`. -/
def hexDigitVal? (b : Nat) : Option Nat :=
  if 48 ≤ b ∧ b ≤ 57 then some (b - 48)
  else if 97 ≤ b ∧ b ≤ 102 then some (b - 87)
  else if 65 ≤ b ∧ b ≤ 70 then some (b - 55)
  else none

/-- The accumulation loop of `x8u`: `ret = ret * 16 + v` over the bytes.  (For
the 8-byte fields this fits a `u32`, so the Rust `u32` accumulator never
overflows.) -/
def hexAcc : List Nat → Nat → Option Nat
  | [], acc => some acc
  | b :: rest, acc =>
    match hexDigitVal? b with
    | none => none
    | some v => hexAcc rest (acc * 16 + v)

/-- `x8u::<U>` from the source: parse 8 ASCII hex bytes into an unsigned value,
then `try_into` the target type `U`; `bound` is the number of values of `U`
(e.g. `2 ^ 32` for `u32`).  Both failure modes yield `Err("bad cpio header")`. -/
def x8u (bound : Nat) (bs : List Nat) : Except String Nat :=
  match hexAcc bs 0 with
  | none => .error "bad cpio header"
  | some v => if v < bound then .ok v else .error "bad cpio header"

/-- All `try_into` targets in `load_from_data` (`usize`, `mode_t`, `uid_t`,
`gid_t`, `dev_t`) hold every value below `2 ^ 32`, and an 8-hex-digit value is
always below `2 ^ 32`, so this bound never rejects. -/
def u32Lim : Nat := 2 ^ 32

/-- `CStr::from_bytes_until_nul`: the bytes before the first NUL, or `none` if
there is no NUL. -/
def cstrUntilNul (bs : List Nat) : Option Name :=
  if bs.contains 0 then some (bs.takeWhile (fun b => b ≠ 0)) else none

/-- `str::from_utf8` validity check (RFC 3629): used to model `CStr::to_str`. -/
def isUtf8 : List Nat → Bool
  | [] => true
  | b :: rest =>
    if b ≤ 0x7F then isUtf8 rest
    else if 0xC2 ≤ b ∧ b ≤ 0xDF then
      match rest with
      | b1 :: rest' => decide (0x80 ≤ b1 ∧ b1 ≤ 0xBF) && isUtf8 rest'
      | [] => false
    else if 0xE0 ≤ b ∧ b ≤ 0xEF then
      match rest with
      | b1 :: b2 :: rest' =>
        let lo1 := if b = 0xE0 then 0xA0 else 0x80
        let hi1 := if b = 0xED then 0x9F else 0xBF
        decide (lo1 ≤ b1 ∧ b1 ≤ hi1) && decide (0x80 ≤ b2 ∧ b2 ≤ 0xBF) && isUtf8 rest'
      | _ => false
    else if 0xF0 ≤ b ∧ b ≤ 0xF4 then
      match rest with
      | b1 :: b2 :: b3 :: rest' =>
        let lo1 := if b = 0xF0 then 0x90 else 0x80
        let hi1 := if b = 0xF4 then 0x8F else 0xBF
        decide (lo1 ≤ b1 ∧ b1 ≤ hi1) && decide (0x80 ≤ b2 ∧ b2 ≤ 0xBF) &&
          decide (0x80 ≤ b3 ∧ b3 ≤ 0xBF) && isUtf8 rest'
      | _ => false
    else false

/-- `data[pos..].windows(6).position(|x| x == b"070701")`. -/
def findMagic : List Nat → Option Nat
  | [] => none
  | b :: rest =>
    if List.take 6 (b :: rest) = magicB then some 0
    else (findMagic rest).map (· + 1)

/-- One step of the `while pos < data.len()` loop of `Cpio::load_from_data`,
with explicit fuel.  The loop advances `pos` by at least 110 per iteration, so
any fuel larger than `data.length - pos` never runs out (running out yields
`crash`, an unreachable branch for the fuel used by `load_from_data`).

Faithfulness notes, in the source's order of effects:
* the magic comparison dereferences a raw 110-byte header pointer at `pos`;
  reading its first 6 bytes with fewer than 6 bytes remaining is an
  out-of-bounds read, modelled as `crash`;
* `&data[pos..]` (name scan) panics when `pos + 110 > data.len()`: `crash`;
* a missing NUL terminator or invalid UTF-8 in the name is a returned error;
* field decoding via `x8u` happens inside the bounds established above
  (offset 94 is `namesize`, 54 `filesize`, 14 `mode`, 22 `uid`, 30 `gid`,
  78 `rdevmajor`, 86 `rdevminor`);
* `data[pos..].windows(6)` after a trailer and `data[pos..pos + file_size]`
  panic when out of bounds: `crash`. -/
def parseLoop (data : List Nat) : Nat → Nat → Entries → PResult Entries
  | 0, _, _ => .crash
  | fuel + 1, pos, acc =>
    if pos < data.length then
      if pos + 6 ≤ data.length then
        if sliceAt data pos 6 = magicB then
          if pos + 110 ≤ data.length then
            match cstrUntilNul (data.drop (pos + 110)) with
            | none => .fatal "FromBytesUntilNulError"
            | some name =>
              if isUtf8 name then
                match x8u u32Lim (sliceAt data (pos + 94) 8) with
                | .error e => .fatal e
                | .ok ns =>
                  let pos2 := align_4 (pos + 110 + ns)
                  if name = dotB ∨ name = dotdotB then
                    parseLoop data fuel pos2 acc
                  else if name = trailerB then
                    if pos2 ≤ data.length then
                      match findMagic (data.drop pos2) with
                      | some x => parseLoop data fuel (pos2 + x) acc
                      | none => .ok acc
                    else .crash
                  else
                    match x8u u32Lim (sliceAt data (pos + 54) 8) with
                    | .error e => .fatal e
                    | .ok fs =>
                      match x8u u32Lim (sliceAt data (pos + 14) 8) with
                      | .error e => .fatal e
                      | .ok mode =>
                        match x8u u32Lim (sliceAt data (pos + 22) 8) with
                        | .error e => .fatal e
                        | .ok uid =>
                          match x8u u32Lim (sliceAt data (pos + 30) 8) with
                          | .error e => .fatal e
                          | .ok gid =>
                            match x8u u32Lim (sliceAt data (pos + 78) 8) with
                            | .error e => .fatal e
                            | .ok rdevmajor =>
                              match x8u u32Lim (sliceAt data (pos + 86) 8) with
                              | .error e => .fatal e
                              | .ok rdevminor =>
                                if pos2 + fs ≤ data.length then
                                  parseLoop data fuel (align_4 (pos2 + fs))
                                    (insertSorted name
                                      ⟨mode, uid, gid, rdevmajor, rdevminor,
                                        sliceAt data pos2 fs⟩ acc)
                                else .crash
              else .fatal "Utf8Error"
          else .crash
        else .fatal "invalid cpio magic"
      else .crash
    else .ok acc

/-- `Cpio::load_from_data`. -/
def load_from_data (data : List Nat) : PResult Cpio :=
  match parseLoop data (data.length + 1) 0 [] with
  | .ok es => .ok ⟨es⟩
  | .fatal m => .fatal m
  | .crash => .crash

/-- The header record written by `Cpio::dump`:
`format!("070701{:08x}...", ino, ...)` with the thirteen fields in wire order. -/
def hdrBytes (ino mode uid gid nlink mtime filesize devmajor devminor
    rdevmajor rdevminor namesize check : Nat) : List Nat :=
  magicB ++ hex8 ino ++ hex8 mode ++ hex8 uid ++ hex8 gid ++ hex8 nlink ++
    hex8 mtime ++ hex8 filesize ++ hex8 devmajor ++ hex8 devminor ++
    hex8 rdevmajor ++ hex8 rdevminor ++ hex8 namesize ++ hex8 check

/-- The bytes one entry contributes to the dump when its header starts at
absolute offset `pos`: header, name, NUL, zero padding to a multiple of 4,
payload, zero padding to a multiple of 4. -/
def recBytes (pos ino : Nat) (k : Name) (e : CpioEntry) : List Nat :=
  let hdr := hdrBytes ino e.mode e.uid e.gid 1 0 e.data.length 0 0
    e.rdevmajor e.rdevminor (k.length + 1) 0
  let p1 := pos + hdr.length + k.length + 1
  let p2 := align_4 p1
  let p3 := p2 + e.data.length
  hdr ++ k ++ [0] ++ zeros (p2 - p1) ++ e.data ++ zeros (align_4 p3 - p3)

/-- The trailer record written after all entries (`"TRAILER!!!"`, mode `0o755`,
namesize 11, filesize 0) plus its final zero padding. -/
def trailerBytes (pos ino : Nat) : List Nat :=
  let hdr := hdrBytes ino 0o755 0 0 1 0 0 0 0 0 0 11 0
  let p1 := pos + hdr.length + 11
  hdr ++ trailerB ++ [0] ++ zeros (align_4 p1 - p1)

/-- The `for (name, entry) in &self.entries` loop of `Cpio::dump`, tracking the
running byte offset `pos` and the synthetic inode counter. -/
def dumpEntries : Entries → Nat → Nat → List Nat
  | [], pos, ino => trailerBytes pos ino
  | (k, e) :: rest, pos, ino =>
    recBytes pos ino k e ++
      dumpEntries rest (pos + (recBytes pos ino k e).length) (ino + 1)

/-- `Cpio::dump`: the byte stream written to the output file (the file itself is
an OS effect outside the model).  `inode` starts at 300000. -/
def Cpio.dump (c : Cpio) : List Nat := dumpEntries c.entries 0 300000

/-- `Cpio::new`. -/
def Cpio.new : Cpio := ⟨[]⟩

/-- `Cpio::rm`: remove the exact normalized path, and with `recursive` also every
key starting with `path + "/"` (byte 47). -/
def Cpio.rm (c : Cpio) (path : Name) (recursive : Bool) : Cpio :=
  let p := norm_path path
  let e1 := removeE p c.entries
  if recursive then
    ⟨e1.filter (fun kv => !(List.isPrefixOf (p ++ [47]) kv.1))⟩
  else ⟨e1⟩

/-- `Cpio::exists`. -/
def Cpio.exists (c : Cpio) (path : Name) : Bool :=
  (lookupE (norm_path path) c.entries).isSome

/-- S_IFMT file type bits (from libc). -/
def S_IFDIR : Nat := 0o040000
def S_IFREG : Nat := 0o100000
def S_IFLNK : Nat := 0o120000
def S_IFBLK : Nat := 0o060000
def S_IFCHR : Nat := 0o020000

/-- The file type `Cpio::add` reads from the source file's metadata
(an OS effect outside the model). -/
inductive FileType where
  | regular
  | block
  | char
  | other
deriving DecidableEq, Repr

/-- `Cpio::add`: fails on a trailing `'/'`; reads `content` and the file type
from the filesystem (modelled as arguments, with `rM`/`rm` the device numbers
derived from the metadata for device nodes); only regular files and block/char
devices are supported; inserts at the normalized path with owner 0:0. -/
def Cpio.add (c : Cpio) (mode : Nat) (path : Name) (content : List Nat)
    (ft : FileType) (rM rm : Nat) : Option Cpio :=
  if path.getLast? = some 47 then none
  else
    match ft with
    | .regular =>
      some ⟨insertSorted (norm_path path)
        ⟨Nat.lor mode S_IFREG, 0, 0, 0, 0, content⟩ c.entries⟩
    | .block =>
      some ⟨insertSorted (norm_path path)
        ⟨Nat.lor mode S_IFBLK, 0, 0, rM, rm, content⟩ c.entries⟩
    | .char =>
      some ⟨insertSorted (norm_path path)
        ⟨Nat.lor mode S_IFCHR, 0, 0, rM, rm, content⟩ c.entries⟩
    | .other => none

/-- `Cpio::mkdir`: insert/replace a directory entry at the normalized path. -/
def Cpio.mkdir (c : Cpio) (mode : Nat) (dir : Name) : Cpio :=
  ⟨insertSorted (norm_path dir)
    ⟨Nat.lor mode S_IFDIR, 0, 0, 0, 0, []⟩ c.entries⟩

/-- `Cpio::ln`: insert/replace a symlink entry at the normalized `dst` whose
payload is the normalized `src` bytes. -/
def Cpio.ln (c : Cpio) (src dst : Name) : Cpio :=
  ⟨insertSorted (norm_path dst)
    ⟨S_IFLNK, 0, 0, 0, 0, norm_path src⟩ c.entries⟩

/-- `Cpio::mv`: `remove` the normalized `from` (error `"no such entry"` if it is
absent, leaving the archive untouched), reinsert under the normalized `to`. -/
def Cpio.mv (c : Cpio) (f t : Name) : Option Cpio :=
  match lookupE (norm_path f) c.entries with
  | none => none
  | some e => some ⟨insertSorted (norm_path t) e (removeE (norm_path f) c.entries)⟩

/-- The `CpioCommands::Extract` arm of `cpio_commands`: with a non-empty `paths`
of length ≠ 2 it fails with `"invalid arguments"` before touching the archive;
otherwise it calls `cpio.extract(paths.get(0), paths.get(1))`, whose filesystem
materialization is outside the model — the returned pair records the arguments
passed to `extract`, and the returned `Cpio` is the (unchanged) archive. -/
def extractCommand (c : Cpio) (paths : List Name) :
    Except String (Cpio × Option Name × Option Name) :=
  if paths ≠ [] ∧ paths.length ≠ 2 then .error "invalid arguments"
  else .ok (c, paths.get? 0, paths.get? 1)

/-- Exactly `k` hex digits of `v`, most significant first: the claim's
"exactly 8 lowercase zero-padded hex digits" reading of a field (`k = 8`). -/
def specDigits : Nat → Nat → List Nat
  | 0, _ => []
  | k + 1, v => specDigits k (v / 16) ++ [hexChar (v % 16)]

/-- The claim's padding target: the smallest multiple of 4 that is ≥ `off`
(stated directly; `pad4To_eq_align_4` connects it to the code's `align_4`). -/
def pad4To (off : Nat) : Nat := if off % 4 = 0 then off else off + (4 - off % 4)

/-- C3's described header record: the 6-byte magic `070701` followed by the
thirteen fields, each as exactly 8 lowercase zero-padded hex digits. -/
def claimHeader (ino mode uid gid nlink mtime filesize devmajor devminor
    rdevmajor rdevminor namesize check : Nat) : List Nat :=
  magicB ++ specDigits 8 ino ++ specDigits 8 mode ++ specDigits 8 uid ++
    specDigits 8 gid ++ specDigits 8 nlink ++ specDigits 8 mtime ++
    specDigits 8 filesize ++ specDigits 8 devmajor ++ specDigits 8 devminor ++
    specDigits 8 rdevmajor ++ specDigits 8 rdevminor ++ specDigits 8 namesize ++
    specDigits 8 check

/-- C3's described output: entries in list order with synthetic inodes
`300000 + index`, `nlink = 1`, `mtime = devmajor = devminor = check = 0`,
`namesize = |name| + 1`, `filesize = |payload|`, padding with zero bytes to the
smallest multiple of 4 after each header+name+NUL and after each payload, and a
final `TRAILER!!!` record with mode `0o755`, namesize 11 and filesize 0. -/
def claimRecords : Entries → Nat → Nat → List Nat
  | [], off, idx =>
    claimHeader (300000 + idx) 0o755 0 0 1 0 0 0 0 0 0 11 0 ++ trailerB ++ [0] ++
      zeros (pad4To (off + 110 + 11) - (off + 110 + 11))
  | (k, e) :: rest, off, idx =>
    let hdr := claimHeader (300000 + idx) e.mode e.uid e.gid 1 0 e.data.length 0 0
      e.rdevmajor e.rdevminor (k.length + 1) 0
    let afterName := off + 110 + k.length + 1
    let padded := pad4To afterName
    let afterData := padded + e.data.length
    hdr ++ k ++ [0] ++ zeros (padded - afterName) ++ e.data ++
      zeros (pad4To afterData - afterData) ++
      claimRecords rest (pad4To afterData) (idx + 1)

/-- The serialized layout claimed by C3, for the whole archive. -/
def claimDump (c : Cpio) : List Nat := claimRecords c.entries 0 0

/-- C1's preconditions on one archive entry: the name is non-empty UTF-8 without
NUL bytes and none of the reserved names, and every serialized numeric field
(mode, uid, gid, rdev pair, payload length, namesize) fits in 32 bits. -/
def GoodEntry (k : Name) (e : CpioEntry) : Prop :=
  k ≠ [] ∧ 0 ∉ k ∧ isUtf8 k = true ∧
  k ≠ dotB ∧ k ≠ dotdotB ∧ k ≠ trailerB ∧
  e.mode < 2 ^ 32 ∧ e.uid < 2 ^ 32 ∧ e.gid < 2 ^ 32 ∧
  e.rdevmajor < 2 ^ 32 ∧ e.rdevminor < 2 ^ 32 ∧
  e.data.length < 2 ^ 32 ∧ k.length + 1 < 2 ^ 32

/-- C1's preconditions on all entries of an archive. -/
def GoodE (es : Entries) : Prop := ∀ kv ∈ es, GoodEntry kv.1 kv.2

/-- Archives reachable from `Cpio::new` or from a successful `load_from_data` by
the entry operations.  As the amended C6 requires, the operations that insert at
a caller-chosen key (`mv`, `mkdir`, `ln`, `add`) are restricted to normalized
targets that avoid the reserved names `"."`, `".."`, `"TRAILER!!!"`. -/
inductive Reachable : Cpio → Prop where
  | new : Reachable Cpio.new
  | load (data : List Nat) (c : Cpio) :
      load_from_data data = .ok c → Reachable c
  | rm (c : Cpio) (p : Name) (r : Bool) :
      Reachable c → Reachable (c.rm p r)
  | mv (c c' : Cpio) (f t : Name) : Reachable c → c.mv f t = some c' →
      norm_path t ≠ dotB → norm_path t ≠ dotdotB → norm_path t ≠ trailerB →
      Reachable c'
  | mkdir (c : Cpio) (m : Nat) (d : Name) : Reachable c →
      norm_path d ≠ dotB → norm_path d ≠ dotdotB → norm_path d ≠ trailerB →
      Reachable (c.mkdir m d)
  | ln (c : Cpio) (s d : Name) : Reachable c →
      norm_path d ≠ dotB → norm_path d ≠ dotdotB → norm_path d ≠ trailerB →
      Reachable (c.ln s d)
  | add (c c' : Cpio) (m : Nat) (p : Name) (content : List Nat)
      (ft : FileType) (rM rm : Nat) :
      Reachable c → c.add m p content ft rM rm = some c' →
      norm_path p ≠ dotB → norm_path p ≠ dotdotB → norm_path p ≠ trailerB →
      Reachable c'

/-- The claim's reading of the decoded value: base-16 digits weighted most
significant first (digit value 0 at non-digit bytes; only used when all bytes
are hex digits). -/
def hexValMSB (bs : List Nat) : Nat :=
  bs.foldl (fun a b => a * 16 + (hexDigitVal? b).getD 0) 0

theorem drop_app (X R : List Nat) (n : Nat) (h : X.length = n) :
    (X ++ R).drop n = R := by
  subst h
  induction X with
  | nil => rfl
  | cons x xs ih => simpa using ih

theorem take_app (X R : List Nat) (n : Nat) (h : X.length = n) :
    (X ++ R).take n = X := by
  subst h
  induction X with
  | nil => rfl
  | cons x xs ih => simpa using ih

theorem drop_add_eq (l : List Nat) (a b : Nat) :
    l.drop (a + b) = (l.drop a).drop b := by
  induction a generalizing l with
  | zero => simp
  | succ n ih =>
    cases l with
    | nil => simp
    | cons x t =>
      have h1 : n + 1 + b = (n + b) + 1 := by omega
      rw [h1]
      simpa using ih t

theorem takeWhileNul (A B : List Nat) (h : 0 ∉ A) :
    (A ++ 0 :: B).takeWhile (fun b => b ≠ 0) = A := by
  induction A with
  | nil =>
    show List.takeWhile _ (0 :: B) = []
    rw [List.takeWhile_cons_of_neg]
    simp
  | cons a as ih =>
    have ha : a ≠ 0 := fun e => h (by simp [e])
    have has : 0 ∉ as := fun e => h (by simp [e])
    show List.takeWhile _ (a :: (as ++ 0 :: B)) = a :: as
    rw [List.takeWhile_cons_of_pos (by simpa using ha), ih has]

theorem cstrUntilNul_app (A B : List Nat) (h : 0 ∉ A) :
    cstrUntilNul (A ++ 0 :: B) = some A := by
  unfold cstrUntilNul
  rw [if_pos, takeWhileNul A B h]
  simp

theorem le_align_4 (x : Nat) : x ≤ align_4 x := by unfold align_4; omega

theorem align_4_lt (x : Nat) : align_4 x < x + 4 := by unfold align_4; omega

theorem align_4_mod (x : Nat) : align_4 x % 4 = 0 := by unfold align_4; omega

theorem align_4_add (a x : Nat) (h : a % 4 = 0) :
    align_4 (a + x) = a + align_4 x := by unfold align_4; omega

theorem align_4_id (x : Nat) (h : x % 4 = 0) : align_4 x = x := by
  unfold align_4; omega

/-- `align_4` is exactly the claim's "smallest multiple of 4 ≥ the offset". -/
theorem pad4To_eq_align_4 (x : Nat) : pad4To x = align_4 x := by
  unfold pad4To align_4; split <;> omega

theorem align_4_least (x y : Nat) (hy : y % 4 = 0) (hxy : x ≤ y) :
    align_4 x ≤ y := by unfold align_4; omega

theorem toHexLE_congr (f : Nat) : ∀ g v, v ≤ f → v ≤ g → toHexLE f v = toHexLE g v := by
  induction f with
  | zero =>
    intro g v hf _
    interval_cases v
    cases g <;> rfl
  | succ n ih =>
    intro g v hf hg
    match v, g with
    | 0, 0 => rfl
    | 0, _ + 1 => rfl
    | w + 1, h + 1 =>
      show ((w + 1) % 16) :: toHexLE n ((w + 1) / 16) =
        ((w + 1) % 16) :: toHexLE h ((w + 1) / 16)
      congr 1
      exact ih h ((w + 1) / 16) (by omega) (by omega)

theorem hexDigitsOf_pos (v : Nat) (h : 0 < v) :
    hexDigitsOf v = v % 16 :: hexDigitsOf (v / 16) := by
  unfold hexDigitsOf
  match v, h with
  | w + 1, _ =>
    show ((w + 1) % 16) :: toHexLE w ((w + 1) / 16) = _
    congr 1
    exact toHexLE_congr w ((w + 1) / 16) ((w + 1) / 16) (by omega) (le_refl _)

theorem specDigits_length (k : Nat) : ∀ v, (specDigits k v).length = k := by
  induction k with
  | zero => intro v; rfl
  | succ n ih => intro v; simp [specDigits, ih]

theorem specDigits_zero (k : Nat) : specDigits k 0 = List.replicate k 48 := by
  induction k with
  | zero => rfl
  | succ n ih =>
    show specDigits n 0 ++ [hexChar 0] = _
    rw [ih, List.replicate_succ' (n := n)]
    rfl

theorem hexPad_spec (k : Nat) : ∀ v, v < 16 ^ k →
    List.replicate (k - ((hexDigitsOf v).reverse.map hexChar).length) 48 ++
      (hexDigitsOf v).reverse.map hexChar = specDigits k v := by
  induction k with
  | zero =>
    intro v h
    have : v = 0 := by simpa using h
    subst this
    rfl
  | succ n ih =>
    intro v h
    by_cases hv : v = 0
    · subst hv
      rw [specDigits_zero]
      have h0 : hexDigitsOf 0 = [] := rfl
      rw [h0]
      simp
    · rw [hexDigitsOf_pos v (Nat.pos_of_ne_zero hv)]
      have hd : v / 16 < 16 ^ n := by
        rw [Nat.div_lt_iff_lt_mul (by norm_num : 0 < 16)]
        calc v < 16 ^ (n + 1) := h
        _ = 16 ^ n * 16 := by rw [pow_succ]
      have := ih (v / 16) hd
      simp only [List.reverse_cons, List.map_append, List.map_cons, List.map_nil,
        List.length_append, List.length_cons, List.length_nil]
      show List.replicate (n + 1 - (_ + 1)) 48 ++ _ = specDigits n (v / 16) ++ [hexChar (v % 16)]
      rw [← this]
      have harith : n + 1 - (((hexDigitsOf (v / 16)).reverse.map hexChar).length + 1) =
        n - ((hexDigitsOf (v / 16)).reverse.map hexChar).length := by omega
      rw [harith, List.append_assoc]

theorem hex8_eq (v : Nat) (h : v < 2 ^ 32) : hex8 v = specDigits 8 v := by
  unfold hex8
  exact hexPad_spec 8 v (by omega)

theorem hex8_length (v : Nat) (h : v < 2 ^ 32) : (hex8 v).length = 8 := by
  rw [hex8_eq v h, specDigits_length]

theorem hexDigitVal_hexChar (d : Nat) (h : d < 16) :
    hexDigitVal? (hexChar d) = some d := by
  unfold hexChar hexDigitVal?
  split_ifs <;> simp_all <;> omega

theorem hexAcc_append (A B : List Nat) : ∀ acc,
    hexAcc (A ++ B) acc = (hexAcc A acc).bind (fun a => hexAcc B a) := by
  induction A with
  | nil => intro acc; rfl
  | cons a as ih =>
    intro acc
    cases h : hexDigitVal? a with
    | none => simp [hexAcc, h]
    | some v =>
      simp only [hexAcc, h]
      exact ih (acc * 16 + v)

theorem hexAcc_specDigits (k : Nat) : ∀ v acc, v < 16 ^ k →
    hexAcc (specDigits k v) acc = some (acc * 16 ^ k + v) := by
  induction k with
  | zero =>
    intro v acc h
    have : v = 0 := by simpa using h
    subst this
    simp [specDigits, hexAcc]
  | succ n ih =>
    intro v acc h
    have hd : v / 16 < 16 ^ n := by
      rw [Nat.div_lt_iff_lt_mul (by norm_num : 0 < 16)]
      calc v < 16 ^ (n + 1) := h
      _ = 16 ^ n * 16 := by rw [pow_succ]
    show hexAcc (specDigits n (v / 16) ++ [hexChar (v % 16)]) acc = _
    rw [hexAcc_append, ih (v / 16) acc hd]
    show hexAcc [hexChar (v % 16)] (acc * 16 ^ n + v / 16) = _
    unfold hexAcc
    rw [hexDigitVal_hexChar (v % 16) (by omega)]
    show some ((acc * 16 ^ n + v / 16) * 16 + v % 16) = _
    congr 1
    calc (acc * 16 ^ n + v / 16) * 16 + v % 16
        = acc * (16 ^ n * 16) + (16 * (v / 16) + v % 16) := by ring
    _ = acc * 16 ^ (n + 1) + v := by rw [Nat.div_add_mod v 16, pow_succ]

theorem hexAcc_some (bs : List Nat) : ∀ acc, (∀ b ∈ bs, (hexDigitVal? b).isSome) →
    hexAcc bs acc =
      some (bs.foldl (fun a b => a * 16 + (hexDigitVal? b).getD 0) acc) := by
  induction bs with
  | nil => intro acc _; rfl
  | cons b rest ih =>
    intro acc h
    have hb := h b (by simp)
    cases hv : hexDigitVal? b with
    | none => rw [hv] at hb; simp at hb
    | some v =>
      simp only [hexAcc, hv]
      rw [ih _ (fun x hx => h x (by simp [hx]))]
      simp [hv]

theorem hexAcc_none (bs : List Nat) : ∀ acc, ¬(∀ b ∈ bs, (hexDigitVal? b).isSome) →
    hexAcc bs acc = none := by
  induction bs with
  | nil => intro acc h; exact absurd (fun b hb => absurd hb (by simp)) h
  | cons b rest ih =>
    intro acc h
    cases hv : hexDigitVal? b with
    | none => simp [hexAcc, hv]
    | some v =>
      simp only [hexAcc, hv]
      apply ih
      intro hall
      apply h
      intro x hx
      rcases List.mem_cons.mp hx with h1 | h2
      · subst h1; simp [hv]
      · exact hall x h2

theorem x8u_of_hexAcc_some (bound : Nat) (bs : List Nat) (X : Nat)
    (h : hexAcc bs 0 = some X) :
    x8u bound bs = if X < bound then .ok X else .error "bad cpio header" := by
  unfold x8u
  rw [h]

theorem x8u_of_hexAcc_none (bound : Nat) (bs : List Nat)
    (h : hexAcc bs 0 = none) : x8u bound bs = .error "bad cpio header" := by
  unfold x8u
  rw [h]

theorem x8u_eq (bound : Nat) (bs : List Nat) :
    x8u bound bs =
      if (∀ b ∈ bs, (hexDigitVal? b).isSome) ∧ hexValMSB bs < bound
      then .ok (hexValMSB bs) else .error "bad cpio header" := by
  by_cases hall : ∀ b ∈ bs, (hexDigitVal? b).isSome
  · rw [x8u_of_hexAcc_some bound bs (hexValMSB bs) (hexAcc_some bs 0 hall)]
    by_cases hlt : hexValMSB bs < bound
    · rw [if_pos hlt, if_pos ⟨hall, hlt⟩]
    · rw [if_neg hlt, if_neg (fun hc => hlt hc.2)]
  · rw [x8u_of_hexAcc_none bound bs (hexAcc_none bs 0 hall),
      if_neg (fun hc => hall hc.1)]

theorem lexLt_irrefl (l : Name) : lexLt l l = false := by
  induction l with
  | nil => rfl
  | cons a as ih => simp [lexLt, ih]

theorem lexLt_trans (a : Name) : ∀ b c : Name,
    lexLt a b = true → lexLt b c = true → lexLt a c = true := by
  induction a with
  | nil =>
    intro b c hab hbc
    cases b with
    | nil => exact absurd hab (by simp [lexLt])
    | cons y ys =>
      cases c with
      | nil => exact absurd hbc (by simp [lexLt])
      | cons z zs => simp [lexLt]
  | cons x xs ih =>
    intro b c hab hbc
    cases b with
    | nil => exact absurd hab (by simp [lexLt])
    | cons y ys =>
      cases c with
      | nil => exact absurd hbc (by simp [lexLt])
      | cons z zs =>
        simp only [lexLt, Bool.or_eq_true, Bool.and_eq_true, beq_iff_eq,
          decide_eq_true_eq] at hab hbc ⊢
        rcases hab with h1 | ⟨h1, h1'⟩
        · rcases hbc with h2 | ⟨h2, h2'⟩
          · exact Or.inl (by omega)
          · subst h2; exact Or.inl h1
        · rcases hbc with h2 | ⟨h2, h2'⟩
          · subst h1; exact Or.inl h2
          · subst h1; subst h2; exact Or.inr ⟨rfl, ih ys zs h1' h2'⟩

theorem lexLt_total (a : Name) : ∀ b : Name,
    a = b ∨ lexLt a b = true ∨ lexLt b a = true := by
  induction a with
  | nil =>
    intro b
    cases b with
    | nil => exact Or.inl rfl
    | cons y ys => exact Or.inr (Or.inl (by simp [lexLt]))
  | cons x xs ih =>
    intro b
    cases b with
    | nil => exact Or.inr (Or.inr (by simp [lexLt]))
    | cons y ys =>
      rcases Nat.lt_trichotomy x y with h | h | h
      · exact Or.inr (Or.inl (by simp [lexLt, h]))
      · subst h
        rcases ih ys with h2 | h2 | h2
        · exact Or.inl (by rw [h2])
        · exact Or.inr (Or.inl (by simp [lexLt, h2]))
        · exact Or.inr (Or.inr (by simp [lexLt, h2]))
      · exact Or.inr (Or.inr (by simp [lexLt, h]))

theorem lexLt_asymm (a b : Name) (h : lexLt a b = true) : lexLt b a = false := by
  by_contra hc
  have hb : lexLt b a = true := by
    cases hba : lexLt b a
    · exact absurd hba hc
    · rfl
  have := lexLt_trans a b a h hb
  rw [lexLt_irrefl] at this
  exact absurd this (by simp)

theorem lexLt_ne (a b : Name) (h : lexLt a b = true) : a ≠ b := by
  intro e
  subst e
  rw [lexLt_irrefl] at h
  exact absurd h (by simp)

theorem lookupE_insertSorted_self (k : Name) (v : CpioEntry) :
    ∀ l, lookupE k (insertSorted k v l) = some v := by
  intro l
  induction l with
  | nil => simp [insertSorted, lookupE]
  | cons kv rest ih =>
    obtain ⟨k', v'⟩ := kv
    by_cases hlt : lexLt k k' = true
    · rw [insertSorted, if_pos hlt]
      simp [lookupE]
    · by_cases heq : k = k'
      · rw [insertSorted, if_neg hlt, if_pos heq]
        simp [lookupE]
      · rw [insertSorted, if_neg hlt, if_neg heq]
        simp [lookupE, heq, ih]

theorem lookupE_insertSorted_ne (k2 k : Name) (v : CpioEntry) (h : k2 ≠ k) :
    ∀ l, lookupE k2 (insertSorted k v l) = lookupE k2 l := by
  intro l
  induction l with
  | nil => simp [insertSorted, lookupE, h]
  | cons kv rest ih =>
    obtain ⟨k', v'⟩ := kv
    by_cases hlt : lexLt k k' = true
    · rw [insertSorted, if_pos hlt]
      simp [lookupE, h]
    · by_cases heq : k = k'
      · subst heq
        rw [insertSorted, if_neg hlt, if_pos rfl]
        simp [lookupE, h]
      · rw [insertSorted, if_neg hlt, if_neg heq]
        by_cases h2 : k2 = k'
        · simp [lookupE, h2]
        · simp [lookupE, h2, ih]

theorem lookupE_removeE_ne (k2 k : Name) (h : k2 ≠ k) :
    ∀ l, lookupE k2 (removeE k l) = lookupE k2 l := by
  intro l
  induction l with
  | nil => rfl
  | cons kv rest ih =>
    obtain ⟨k', v'⟩ := kv
    by_cases he : k' = k
    · subst he
      rw [removeE, if_pos rfl]
      simp [lookupE, h]
    · rw [removeE, if_neg he]
      by_cases h2 : k2 = k'
      · simp [lookupE, h2]
      · simp [lookupE, h2, ih]

theorem lookupE_none_of_not_mem (k : Name) :
    ∀ l : Entries, k ∉ l.map Prod.fst → lookupE k l = none := by
  intro l
  induction l with
  | nil => intro _; rfl
  | cons kv rest ih =>
    intro h
    obtain ⟨k', v'⟩ := kv
    have h1 : k ≠ k' := fun e => h (by simp [e])
    have h2 : k ∉ rest.map Prod.fst := fun e => h (by simp [e])
    simp [lookupE, h1, ih h2]

theorem lookupE_removeE_self (k : Name) :
    ∀ l : Entries, l.Pairwise (fun a b => a.1 ≠ b.1) →
      lookupE k (removeE k l) = none := by
  intro l
  induction l with
  | nil => intro _; rfl
  | cons kv rest ih =>
    intro h
    obtain ⟨k', v'⟩ := kv
    rw [List.pairwise_cons] at h
    by_cases he : k' = k
    · subst he
      rw [removeE, if_pos rfl]
      apply lookupE_none_of_not_mem
      intro hm
      rcases List.mem_map.mp hm with ⟨b, hb, hb2⟩
      exact h.1 b hb hb2.symm
    · rw [removeE, if_neg he]
      have hne : k ≠ k' := fun e => he e.symm
      simp [lookupE, hne, ih h.2]

theorem lookupE_filter (P : Name → Bool) (k : Name) :
    ∀ l : Entries, lookupE k (l.filter (fun kv => P kv.1)) =
      if P k then lookupE k l else none := by
  intro l
  induction l with
  | nil => simp [lookupE]
  | cons kv rest ih =>
    obtain ⟨k', v'⟩ := kv
    by_cases h2 : k = k'
    · subst h2
      cases hP : P k with
      | false => simp [List.filter, hP, lookupE, ih]
      | true => simp [List.filter, hP, lookupE]
    · cases hP : P k' with
      | false => simp [List.filter, hP, lookupE, h2, ih]
      | true => simp [List.filter, hP, lookupE, h2, ih]

theorem sortedE_nodupKeys (l : Entries) (h : SortedE l) :
    l.Pairwise (fun a b => a.1 ≠ b.1) := by
  unfold SortedE at h
  exact h.imp (fun hab => lexLt_ne _ _ hab)

theorem insertSorted_append_gt (k : Name) (v : CpioEntry) :
    ∀ acc : Entries, (∀ a ∈ acc, lexLt a.1 k = true) →
      insertSorted k v acc = acc ++ [(k, v)] := by
  intro acc
  induction acc with
  | nil => intro _; rfl
  | cons kv rest ih =>
    intro h
    obtain ⟨k', v'⟩ := kv
    have hk' : lexLt k' k = true := h (k', v') (by simp)
    have h1 : lexLt k k' = false := lexLt_asymm k' k hk'
    have h2 : k ≠ k' := fun e => lexLt_ne k' k hk' e.symm
    simp only [insertSorted, h1, if_neg h2]
    simp only [Bool.false_eq_true, if_false]
    rw [ih (fun a ha => h a (by simp [ha]))]
    simp

theorem insertList_sorted (es : Entries) :
    ∀ acc : Entries, SortedE (acc ++ es) → insertList es acc = acc ++ es := by
  induction es with
  | nil => intro acc _; simp [insertList]
  | cons kv rest ih =>
    intro acc h
    obtain ⟨k, e⟩ := kv
    show insertList rest (insertSorted k e acc) = _
    have hgt : ∀ a ∈ acc, lexLt a.1 k = true := by
      intro a ha
      have := (List.pairwise_append.mp h).2.2 a ha (k, e) (by simp)
      exact this
    rw [insertSorted_append_gt k e acc hgt]
    have hs : SortedE ((acc ++ [(k, e)]) ++ rest) := by
      rw [List.append_assoc]
      simpa using h
    rw [ih (acc ++ [(k, e)]) hs]
    simp

theorem lookupE_insertList (es : Entries) :
    ∀ acc k, es.Pairwise (fun a b => a.1 ≠ b.1) →
      lookupE k (insertList es acc) =
        match lookupE k es with
        | some v => some v
        | none => lookupE k acc := by
  induction es with
  | nil => intro acc k _; simp [insertList, lookupE]
  | cons kv rest ih =>
    intro acc k h
    obtain ⟨k0, v0⟩ := kv
    rw [List.pairwise_cons] at h
    show lookupE k (insertList rest (insertSorted k0 v0 acc)) = _
    rw [ih _ k h.2]
    by_cases he : k = k0
    · subst he
      have hnone : lookupE k rest = none := by
        apply lookupE_none_of_not_mem
        intro hm
        rcases List.mem_map.mp hm with ⟨b, hb, hb2⟩
        exact h.1 b hb hb2.symm
      rw [hnone, lookupE_insertSorted_self]
      simp [lookupE]
    · rw [lookupE_insertSorted_ne k k0 v0 he]
      simp [lookupE, he]

theorem x8u_hex8 (v : Nat) (h : v < 2 ^ 32) : x8u u32Lim (hex8 v) = .ok v := by
  rw [hex8_eq v h]
  have h16 : v < 16 ^ 8 := by
    have he : (16 : Nat) ^ 8 = 2 ^ 32 := by norm_num
    rw [he]
    exact h
  have hacc := hexAcc_specDigits 8 v 0 h16
  rw [x8u_of_hexAcc_some u32Lim _ (0 * 16 ^ 8 + v) hacc]
  have : 0 * 16 ^ 8 + v = v := by ring
  rw [this, if_pos]
  show v < u32Lim
  unfold u32Lim
  exact h

theorem zeros_length (n : Nat) : (zeros n).length = n := by
  unfold zeros
  exact List.length_replicate n 0

theorem drop_cons_chunk (D : List Nat) (i la : Nat) (X R : List Nat)
    (h : D.drop i = X ++ R) (hl : X.length = la) : D.drop (i + la) = R := by
  rw [drop_add_eq, h, drop_app X R la hl]

theorem hdrBytes_length (i m u g nl mt fs dM dm rM rm2 ns ck : Nat)
    (h1 : i < 2 ^ 32) (h2 : m < 2 ^ 32) (h3 : u < 2 ^ 32) (h4 : g < 2 ^ 32)
    (h5 : nl < 2 ^ 32) (h6 : mt < 2 ^ 32) (h7 : fs < 2 ^ 32) (h8 : dM < 2 ^ 32)
    (h9 : dm < 2 ^ 32) (h10 : rM < 2 ^ 32) (h11 : rm2 < 2 ^ 32)
    (h12 : ns < 2 ^ 32) (h13 : ck < 2 ^ 32) :
    (hdrBytes i m u g nl mt fs dM dm rM rm2 ns ck).length = 110 := by
  unfold hdrBytes
  simp [List.length_append, hex8_length _ h1, hex8_length _ h2, hex8_length _ h3,
    hex8_length _ h4, hex8_length _ h5, hex8_length _ h6, hex8_length _ h7,
    hex8_length _ h8, hex8_length _ h9, hex8_length _ h10, hex8_length _ h11,
    hex8_length _ h12, hex8_length _ h13, magicB]

theorem parse_record_core
    (pre tail : List Nat) (k : Name) (e : CpioEntry) (acc : Entries)
    (q ino fuel z1 z2 : Nat)
    (hpre : pre.length = q)
    (hz1 : q + 110 + k.length + 1 + z1 = align_4 (q + 110 + k.length + 1))
    (hz2 : align_4 (q + 110 + k.length + 1) + e.data.length + z2 =
      align_4 (align_4 (q + 110 + k.length + 1) + e.data.length))
    (hg : GoodEntry k e) (hino : ino < 2 ^ 32) :
    parseLoop (pre ++ (hdrBytes ino e.mode e.uid e.gid 1 0 e.data.length 0 0
        e.rdevmajor e.rdevminor (k.length + 1) 0 ++ (k ++ ([0] ++ (zeros z1 ++
        (e.data ++ (zeros z2 ++ tail))))))) (fuel + 1) q acc =
      parseLoop (pre ++ (hdrBytes ino e.mode e.uid e.gid 1 0 e.data.length 0 0
        e.rdevmajor e.rdevminor (k.length + 1) 0 ++ (k ++ ([0] ++ (zeros z1 ++
        (e.data ++ (zeros z2 ++ tail)))))))
        fuel (align_4 (align_4 (q + 110 + k.length + 1) + e.data.length))
        (insertSorted k e acc) := by
  obtain ⟨hne, hnul, hutf, hdot, hdotdot, htr, hm, hu, hgd, hrM, hrm, hdl, hns⟩ := hg
  have hns8 : k.length + 1 < 2 ^ 32 := hns
  set D := pre ++ (hdrBytes ino e.mode e.uid e.gid 1 0 e.data.length 0 0
    e.rdevmajor e.rdevminor (k.length + 1) 0 ++ (k ++ ([0] ++ (zeros z1 ++
    (e.data ++ (zeros z2 ++ tail)))))) with hD
  have hhdr : (hdrBytes ino e.mode e.uid e.gid 1 0 e.data.length 0 0
      e.rdevmajor e.rdevminor (k.length + 1) 0).length = 110 :=
    hdrBytes_length _ _ _ _ _ _ _ _ _ _ _ _ _ hino hm hu hgd (by norm_num)
      (by norm_num) hdl (by norm_num) (by norm_num) hrM hrm hns8 (by norm_num)
  have hP1le : q + 110 + k.length + 1 ≤ align_4 (q + 110 + k.length + 1) :=
    le_align_4 _
  have hP3le : align_4 (q + 110 + k.length + 1) + e.data.length ≤
      align_4 (align_4 (q + 110 + k.length + 1) + e.data.length) := le_align_4 _
  have hDlen : D.length =
      align_4 (align_4 (q + 110 + k.length + 1) + e.data.length) + tail.length := by
    rw [hD]
    simp only [List.length_append, List.length_cons, List.length_nil, hhdr, hpre,
      zeros_length]
    omega
  -- the header, fully right-associated
  have hD0 : D.drop q = magicB ++ (hex8 ino ++ (hex8 e.mode ++ (hex8 e.uid ++
      (hex8 e.gid ++ (hex8 1 ++ (hex8 0 ++ (hex8 e.data.length ++ (hex8 0 ++
      (hex8 0 ++ (hex8 e.rdevmajor ++ (hex8 e.rdevminor ++ (hex8 (k.length + 1) ++
      (hex8 0 ++ (k ++ ([0] ++ (zeros z1 ++ (e.data ++ (zeros z2 ++
      tail)))))))))))))))))) := by
    rw [hD, drop_app pre _ q hpre]
    simp only [hdrBytes, List.append_assoc]
  have t6 := drop_cons_chunk D q 6 _ _ hD0 (by decide)
  have t14 := drop_cons_chunk D (q + 6) 8 _ _ t6 (hex8_length _ hino)
  rw [show q + 6 + 8 = q + 14 from by omega] at t14
  have t22 := drop_cons_chunk D (q + 14) 8 _ _ t14 (hex8_length _ hm)
  rw [show q + 14 + 8 = q + 22 from by omega] at t22
  have t30 := drop_cons_chunk D (q + 22) 8 _ _ t22 (hex8_length _ hu)
  rw [show q + 22 + 8 = q + 30 from by omega] at t30
  have t38 := drop_cons_chunk D (q + 30) 8 _ _ t30 (hex8_length _ hgd)
  rw [show q + 30 + 8 = q + 38 from by omega] at t38
  have t46 := drop_cons_chunk D (q + 38) 8 _ _ t38 (hex8_length _ (by norm_num))
  rw [show q + 38 + 8 = q + 46 from by omega] at t46
  have t54 := drop_cons_chunk D (q + 46) 8 _ _ t46 (hex8_length _ (by norm_num))
  rw [show q + 46 + 8 = q + 54 from by omega] at t54
  have t62 := drop_cons_chunk D (q + 54) 8 _ _ t54 (hex8_length _ hdl)
  rw [show q + 54 + 8 = q + 62 from by omega] at t62
  have t70 := drop_cons_chunk D (q + 62) 8 _ _ t62 (hex8_length _ (by norm_num))
  rw [show q + 62 + 8 = q + 70 from by omega] at t70
  have t78 := drop_cons_chunk D (q + 70) 8 _ _ t70 (hex8_length _ (by norm_num))
  rw [show q + 70 + 8 = q + 78 from by omega] at t78
  have t86 := drop_cons_chunk D (q + 78) 8 _ _ t78 (hex8_length _ hrM)
  rw [show q + 78 + 8 = q + 86 from by omega] at t86
  have t94 := drop_cons_chunk D (q + 86) 8 _ _ t86 (hex8_length _ hrm)
  rw [show q + 86 + 8 = q + 94 from by omega] at t94
  have t102 := drop_cons_chunk D (q + 94) 8 _ _ t94 (hex8_length _ hns8)
  rw [show q + 94 + 8 = q + 102 from by omega] at t102
  have t110 := drop_cons_chunk D (q + 102) 8 _ _ t102 (hex8_length _ (by norm_num))
  rw [show q + 102 + 8 = q + 110 from by omega] at t110
  have tName := drop_cons_chunk D (q + 110) k.length _ _ t110 rfl
  have tNul := drop_cons_chunk D (q + 110 + k.length) 1 _ _ tName rfl
  have tZ1 := drop_cons_chunk D (q + 110 + k.length + 1) z1 _ _ tNul (zeros_length z1)
  rw [hz1] at tZ1
  -- field slices
  have sMagic : sliceAt D q 6 = magicB := by
    rw [sliceAt, hD0, take_app _ _ 6 (by decide)]
  have sMode : sliceAt D (q + 14) 8 = hex8 e.mode := by
    rw [sliceAt, t14, take_app _ _ 8 (hex8_length _ hm)]
  have sUid : sliceAt D (q + 22) 8 = hex8 e.uid := by
    rw [sliceAt, t22, take_app _ _ 8 (hex8_length _ hu)]
  have sGid : sliceAt D (q + 30) 8 = hex8 e.gid := by
    rw [sliceAt, t30, take_app _ _ 8 (hex8_length _ hgd)]
  have sFs : sliceAt D (q + 54) 8 = hex8 e.data.length := by
    rw [sliceAt, t54, take_app _ _ 8 (hex8_length _ hdl)]
  have sRM : sliceAt D (q + 78) 8 = hex8 e.rdevmajor := by
    rw [sliceAt, t78, take_app _ _ 8 (hex8_length _ hrM)]
  have sRm : sliceAt D (q + 86) 8 = hex8 e.rdevminor := by
    rw [sliceAt, t86, take_app _ _ 8 (hex8_length _ hrm)]
  have sNs : sliceAt D (q + 94) 8 = hex8 (k.length + 1) := by
    rw [sliceAt, t94, take_app _ _ 8 (hex8_length _ hns8)]
  have sData : sliceAt D (align_4 (q + 110 + k.length + 1)) e.data.length = e.data := by
    rw [sliceAt, tZ1, take_app _ _ _ rfl]
  -- the name scan
  have hname : cstrUntilNul (D.drop (q + 110)) = some k := by
    rw [t110]
    exact cstrUntilNul_app k _ hnul
  -- guards
  have hq_lt : q < D.length := by omega
  have h6 : q + 6 ≤ D.length := by omega
  have h110 : q + 110 ≤ D.length := by omega
  have hdotor : ¬(k = dotB ∨ k = dotdotB) := by
    intro hc
    rcases hc with hc | hc
    · exact hdot hc
    · exact hdotdot hc
  have hfsle : align_4 (q + 110 + (k.length + 1)) + e.data.length ≤ D.length := by
    rw [show q + 110 + (k.length + 1) = q + 110 + k.length + 1 from by omega]
    omega
  -- unfold one loop iteration
  rw [parseLoop]
  rw [if_pos hq_lt, if_pos h6, if_pos sMagic, if_pos h110]
  simp only [hname, if_pos hutf, sNs, x8u_hex8 _ hns8,
    show q + 110 + (k.length + 1) = q + 110 + k.length + 1 from by omega,
    if_neg hdotor, if_neg htr, sFs, x8u_hex8 _ hdl, sMode, x8u_hex8 _ hm,
    sUid, x8u_hex8 _ hu, sGid, x8u_hex8 _ hgd, sRM, x8u_hex8 _ hrM,
    sRm, x8u_hex8 _ hrm]
  rw [if_pos (by omega : align_4 (q + 110 + k.length + 1) + e.data.length ≤ D.length)]
  rw [sData]

theorem parse_trailer_core
    (pre tail : List Nat) (acc : Entries) (q ino fuel z1 : Nat)
    (hpre : pre.length = q)
    (hz1 : q + 110 + 11 + z1 = align_4 (q + 110 + 11))
    (hino : ino < 2 ^ 32) :
    parseLoop (pre ++ (hdrBytes ino 0o755 0 0 1 0 0 0 0 0 0 11 0 ++
        (trailerB ++ ([0] ++ (zeros z1 ++ tail))))) (fuel + 1) q acc =
      match findMagic tail with
      | some x => parseLoop (pre ++ (hdrBytes ino 0o755 0 0 1 0 0 0 0 0 0 11 0 ++
          (trailerB ++ ([0] ++ (zeros z1 ++ tail))))) fuel
          (align_4 (q + 110 + 11) + x) acc
      | none => .ok acc := by
  set D := pre ++ (hdrBytes ino 0o755 0 0 1 0 0 0 0 0 0 11 0 ++
    (trailerB ++ ([0] ++ (zeros z1 ++ tail)))) with hD
  have hhdr : (hdrBytes ino 0o755 0 0 1 0 0 0 0 0 0 11 0).length = 110 :=
    hdrBytes_length _ _ _ _ _ _ _ _ _ _ _ _ _ hino (by norm_num) (by norm_num)
      (by norm_num) (by norm_num) (by norm_num) (by norm_num) (by norm_num)
      (by norm_num) (by norm_num) (by norm_num) (by norm_num) (by norm_num)
  have hP1le : q + 110 + 11 ≤ align_4 (q + 110 + 11) := le_align_4 _
  have hDlen : D.length = align_4 (q + 110 + 11) + tail.length := by
    rw [hD]
    simp only [List.length_append, List.length_cons, List.length_nil, hhdr, hpre,
      zeros_length]
    have : trailerB.length = 10 := by decide
    omega
  have hD0 : D.drop q = magicB ++ (hex8 ino ++ (hex8 0o755 ++ (hex8 0 ++
      (hex8 0 ++ (hex8 1 ++ (hex8 0 ++ (hex8 0 ++ (hex8 0 ++ (hex8 0 ++
      (hex8 0 ++ (hex8 0 ++ (hex8 11 ++ (hex8 0 ++ (trailerB ++ ([0] ++
      (zeros z1 ++ tail)))))))))))))))) := by
    rw [hD, drop_app pre _ q hpre]
    simp only [hdrBytes, List.append_assoc]
  have t6 := drop_cons_chunk D q 6 _ _ hD0 (by decide)
  have t14 := drop_cons_chunk D (q + 6) 8 _ _ t6 (hex8_length _ hino)
  rw [show q + 6 + 8 = q + 14 from by omega] at t14
  have t22 := drop_cons_chunk D (q + 14) 8 _ _ t14 (hex8_length _ (by norm_num))
  rw [show q + 14 + 8 = q + 22 from by omega] at t22
  have t30 := drop_cons_chunk D (q + 22) 8 _ _ t22 (hex8_length _ (by norm_num))
  rw [show q + 22 + 8 = q + 30 from by omega] at t30
  have t38 := drop_cons_chunk D (q + 30) 8 _ _ t30 (hex8_length _ (by norm_num))
  rw [show q + 30 + 8 = q + 38 from by omega] at t38
  have t46 := drop_cons_chunk D (q + 38) 8 _ _ t38 (hex8_length _ (by norm_num))
  rw [show q + 38 + 8 = q + 46 from by omega] at t46
  have t54 := drop_cons_chunk D (q + 46) 8 _ _ t46 (hex8_length _ (by norm_num))
  rw [show q + 46 + 8 = q + 54 from by omega] at t54
  have t62 := drop_cons_chunk D (q + 54) 8 _ _ t54 (hex8_length _ (by norm_num))
  rw [show q + 54 + 8 = q + 62 from by omega] at t62
  have t70 := drop_cons_chunk D (q + 62) 8 _ _ t62 (hex8_length _ (by norm_num))
  rw [show q + 62 + 8 = q + 70 from by omega] at t70
  have t78 := drop_cons_chunk D (q + 70) 8 _ _ t70 (hex8_length _ (by norm_num))
  rw [show q + 70 + 8 = q + 78 from by omega] at t78
  have t86 := drop_cons_chunk D (q + 78) 8 _ _ t78 (hex8_length _ (by norm_num))
  rw [show q + 78 + 8 = q + 86 from by omega] at t86
  have t94 := drop_cons_chunk D (q + 86) 8 _ _ t86 (hex8_length _ (by norm_num))
  rw [show q + 86 + 8 = q + 94 from by omega] at t94
  have t102 := drop_cons_chunk D (q + 94) 8 _ _ t94 (hex8_length _ (by norm_num))
  rw [show q + 94 + 8 = q + 102 from by omega] at t102
  have t110 := drop_cons_chunk D (q + 102) 8 _ _ t102 (hex8_length _ (by norm_num))
  rw [show q + 102 + 8 = q + 110 from by omega] at t110
  have tName := drop_cons_chunk D (q + 110) 10 _ _ t110 (by decide)
  have tNul := drop_cons_chunk D (q + 110 + 10) 1 _ _ tName rfl
  have tZ1 := drop_cons_chunk D (q + 110 + 10 + 1) z1 _ _ tNul (zeros_length z1)
  rw [show q + 110 + 10 + 1 + z1 = q + 110 + 11 + z1 from by omega, hz1] at tZ1
  have sMagic : sliceAt D q 6 = magicB := by
    rw [sliceAt, hD0, take_app _ _ 6 (by decide)]
  have sNs : sliceAt D (q + 94) 8 = hex8 11 := by
    rw [sliceAt, t94, take_app _ _ 8 (hex8_length _ (by norm_num))]
  have hname : cstrUntilNul (D.drop (q + 110)) = some trailerB := by
    rw [t110]
    exact cstrUntilNul_app trailerB _ (by decide)
  have hq_lt : q < D.length := by omega
  have h6 : q + 6 ≤ D.length := by omega
  have h110 : q + 110 ≤ D.length := by omega
  have hdotor : ¬(trailerB = dotB ∨ trailerB = dotdotB) := by decide
  rw [parseLoop]
  rw [if_pos hq_lt, if_pos h6, if_pos sMagic, if_pos h110]
  simp only [hname, if_pos (show isUtf8 trailerB = true by decide), sNs,
    x8u_hex8 11 (by norm_num),
    show q + 110 + 11 = q + 121 from by omega,
    if_neg hdotor, if_pos (rfl : trailerB = trailerB)]
  rw [if_pos (show align_4 (q + 121) ≤ D.length from by
    rw [show q + 121 = q + 110 + 11 from by omega]; omega)]
  rw [show align_4 (q + 121) = align_4 (q + 110 + 11) from by
    rw [show q + 121 = q + 110 + 11 from by omega], tZ1]
  rw [if_pos trivial]

theorem align_sub_mod (a b : Nat) (h : a % 4 = b % 4) :
    align_4 a - a = align_4 b - b := by unfold align_4; omega

theorem recBytes_chunks (pos ino : Nat) (k : Name) (e : CpioEntry)
    (hino : ino < 2 ^ 32) (hm : e.mode < 2 ^ 32) (hu : e.uid < 2 ^ 32)
    (hg : e.gid < 2 ^ 32) (hrM : e.rdevmajor < 2 ^ 32) (hrm : e.rdevminor < 2 ^ 32)
    (hdl : e.data.length < 2 ^ 32) (hns : k.length + 1 < 2 ^ 32) :
    recBytes pos ino k e =
      hdrBytes ino e.mode e.uid e.gid 1 0 e.data.length 0 0 e.rdevmajor e.rdevminor
        (k.length + 1) 0 ++ (k ++ ([0] ++
        (zeros (align_4 (pos + 110 + k.length + 1) - (pos + 110 + k.length + 1)) ++
        (e.data ++ zeros (align_4 (align_4 (pos + 110 + k.length + 1) + e.data.length) -
          (align_4 (pos + 110 + k.length + 1) + e.data.length)))))) := by
  have hhdr : (hdrBytes ino e.mode e.uid e.gid 1 0 e.data.length 0 0
      e.rdevmajor e.rdevminor (k.length + 1) 0).length = 110 :=
    hdrBytes_length _ _ _ _ _ _ _ _ _ _ _ _ _ hino hm hu hg (by norm_num)
      (by norm_num) hdl (by norm_num) (by norm_num) hrM hrm hns (by norm_num)
  simp only [recBytes, hhdr]
  simp only [List.append_assoc]

theorem recBytes_endPos (pos ino : Nat) (k : Name) (e : CpioEntry)
    (hino : ino < 2 ^ 32) (hm : e.mode < 2 ^ 32) (hu : e.uid < 2 ^ 32)
    (hg : e.gid < 2 ^ 32) (hrM : e.rdevmajor < 2 ^ 32) (hrm : e.rdevminor < 2 ^ 32)
    (hdl : e.data.length < 2 ^ 32) (hns : k.length + 1 < 2 ^ 32) :
    pos + (recBytes pos ino k e).length =
      align_4 (align_4 (pos + 110 + k.length + 1) + e.data.length) := by
  have hhdr : (hdrBytes ino e.mode e.uid e.gid 1 0 e.data.length 0 0
      e.rdevmajor e.rdevminor (k.length + 1) 0).length = 110 :=
    hdrBytes_length _ _ _ _ _ _ _ _ _ _ _ _ _ hino hm hu hg (by norm_num)
      (by norm_num) hdl (by norm_num) (by norm_num) hrM hrm hns (by norm_num)
  rw [recBytes_chunks pos ino k e hino hm hu hg hrM hrm hdl hns]
  simp only [List.length_append, List.length_cons, List.length_nil, zeros_length, hhdr]
  have h1 := le_align_4 (pos + 110 + k.length + 1)
  have h2 := le_align_4 (align_4 (pos + 110 + k.length + 1) + e.data.length)
  omega

theorem trailerBytes_chunks (pos ino : Nat) (hino : ino < 2 ^ 32) :
    trailerBytes pos ino = hdrBytes ino 0o755 0 0 1 0 0 0 0 0 0 11 0 ++
      (trailerB ++ ([0] ++
        zeros (align_4 (pos + 110 + 11) - (pos + 110 + 11)))) := by
  have hhdr : (hdrBytes ino 0o755 0 0 1 0 0 0 0 0 0 11 0).length = 110 :=
    hdrBytes_length _ _ _ _ _ _ _ _ _ _ _ _ _ hino (by norm_num) (by norm_num)
      (by norm_num) (by norm_num) (by norm_num) (by norm_num) (by norm_num)
      (by norm_num) (by norm_num) (by norm_num) (by norm_num) (by norm_num)
  simp only [trailerBytes, hhdr]
  simp only [List.append_assoc]

theorem trailerBytes_endPos (pos ino : Nat) (hino : ino < 2 ^ 32) :
    pos + (trailerBytes pos ino).length = align_4 (pos + 110 + 11) := by
  rw [trailerBytes_chunks pos ino hino]
  have hhdr : (hdrBytes ino 0o755 0 0 1 0 0 0 0 0 0 11 0).length = 110 :=
    hdrBytes_length _ _ _ _ _ _ _ _ _ _ _ _ _ hino (by norm_num) (by norm_num)
      (by norm_num) (by norm_num) (by norm_num) (by norm_num) (by norm_num)
      (by norm_num) (by norm_num) (by norm_num) (by norm_num) (by norm_num)
  have htr : trailerB.length = 10 := by decide
  simp only [List.length_append, List.length_cons, List.length_nil, zeros_length,
    hhdr, htr]
  have h1 := le_align_4 (pos + 110 + 11)
  omega

theorem recBytes_congr (p q ino : Nat) (k : Name) (e : CpioEntry)
    (hino : ino < 2 ^ 32) (hm : e.mode < 2 ^ 32) (hu : e.uid < 2 ^ 32)
    (hg : e.gid < 2 ^ 32) (hrM : e.rdevmajor < 2 ^ 32) (hrm : e.rdevminor < 2 ^ 32)
    (hdl : e.data.length < 2 ^ 32) (hns : k.length + 1 < 2 ^ 32)
    (h : p % 4 = q % 4) : recBytes p ino k e = recBytes q ino k e := by
  rw [recBytes_chunks p ino k e hino hm hu hg hrM hrm hdl hns,
    recBytes_chunks q ino k e hino hm hu hg hrM hrm hdl hns]
  have hz1 : align_4 (p + 110 + k.length + 1) - (p + 110 + k.length + 1) =
      align_4 (q + 110 + k.length + 1) - (q + 110 + k.length + 1) :=
    align_sub_mod _ _ (by omega)
  have a1 : align_4 (p + 110 + k.length + 1) % 4 = 0 := align_4_mod _
  have a2 : align_4 (q + 110 + k.length + 1) % 4 = 0 := align_4_mod _
  have hz2 : align_4 (align_4 (p + 110 + k.length + 1) + e.data.length) -
      (align_4 (p + 110 + k.length + 1) + e.data.length) =
      align_4 (align_4 (q + 110 + k.length + 1) + e.data.length) -
      (align_4 (q + 110 + k.length + 1) + e.data.length) :=
    align_sub_mod _ _ (by omega)
  rw [hz1, hz2]

theorem trailerBytes_congr (p q ino : Nat) (hino : ino < 2 ^ 32)
    (h : p % 4 = q % 4) : trailerBytes p ino = trailerBytes q ino := by
  rw [trailerBytes_chunks p ino hino, trailerBytes_chunks q ino hino]
  rw [align_sub_mod (p + 110 + 11) (q + 110 + 11) (by omega)]

theorem dumpEntries_congr (es : Entries) : ∀ p q ino, GoodE es →
    ino + es.length < 2 ^ 32 → p % 4 = q % 4 →
    dumpEntries es p ino = dumpEntries es q ino := by
  induction es with
  | nil =>
    intro p q ino hgood hino h
    exact trailerBytes_congr p q ino (by simpa using hino) h
  | cons kv rest ih =>
    intro p q ino hgood hino h
    obtain ⟨k, e⟩ := kv
    obtain ⟨_, _, _, _, _, _, hm, hu, hg, hrM, hrm, hdl, hns⟩ :=
      hgood (k, e) (by simp)
    have hino1 : ino < 2 ^ 32 := by
      simp only [List.length_cons] at hino
      omega
    have hr : recBytes p ino k e = recBytes q ino k e :=
      recBytes_congr p q ino k e hino1 hm hu hg hrM hrm hdl hns h
    simp only [dumpEntries]
    rw [hr]
    have hrest : dumpEntries rest (p + (recBytes q ino k e).length) (ino + 1) =
        dumpEntries rest (q + (recBytes q ino k e).length) (ino + 1) := by
      apply ih
      · intro kv hkv
        exact hgood kv (List.mem_cons_of_mem _ hkv)
      · simp only [List.length_cons] at hino
        omega
      · omega
    rw [hrest]

theorem parse_dump_master (es : Entries) :
    ∀ (pre tail : List Nat) (acc : Entries) (q ino fuel : Nat),
      pre.length = q → q % 4 = 0 → GoodE es → ino + es.length < 2 ^ 32 →
      parseLoop (pre ++ dumpEntries es q ino ++ tail) (fuel + es.length + 1) q acc =
        match findMagic tail with
        | some x => parseLoop (pre ++ dumpEntries es q ino ++ tail) fuel
            (q + (dumpEntries es q ino).length + x) (insertList es acc)
        | none => .ok (insertList es acc) := by
  induction es with
  | nil =>
    intro pre tail acc q ino fuel hpre hq4 hgood hino
    have hino1 : ino < 2 ^ 32 := by simpa using hino
    have hle := le_align_4 (q + 110 + 11)
    have hz1 : q + 110 + 11 + (align_4 (q + 110 + 11) - (q + 110 + 11)) =
        align_4 (q + 110 + 11) := by omega
    have hform : pre ++ dumpEntries [] q ino ++ tail =
        pre ++ (hdrBytes ino 0o755 0 0 1 0 0 0 0 0 0 11 0 ++ (trailerB ++ ([0] ++
          (zeros (align_4 (q + 110 + 11) - (q + 110 + 11)) ++ tail)))) := by
      simp only [dumpEntries]
      rw [trailerBytes_chunks q ino hino1]
      simp only [List.append_assoc]
    have hlen : q + (dumpEntries [] q ino).length = align_4 (q + 110 + 11) := by
      simp only [dumpEntries]
      exact trailerBytes_endPos q ino hino1
    rw [show fuel + List.length ([] : Entries) + 1 = fuel + 1 from by simp]
    rw [hform, ← hlen]
    rw [parse_trailer_core pre tail acc q ino fuel _ hpre (by rw [hlen]; omega) hino1]
    rw [hlen]
    simp only [insertList, List.foldl_nil]
  | cons kv rest ih =>
    intro pre tail acc q ino fuel hpre hq4 hgood hino
    obtain ⟨k, e⟩ := kv
    obtain ⟨hne, hnul, hutf, hdot, hdotdot, htr, hm, hu, hg2, hrM, hrm, hdl, hns⟩ :=
      hgood (k, e) (by simp)
    have hino1 : ino < 2 ^ 32 := by simp only [List.length_cons] at hino; omega
    have hgoodrest : GoodE rest := fun kv hkv => hgood kv (List.mem_cons_of_mem _ hkv)
    have hP1le := le_align_4 (q + 110 + k.length + 1)
    have hP3le := le_align_4 (align_4 (q + 110 + k.length + 1) + e.data.length)
    have hend : q + (recBytes q ino k e).length =
        align_4 (align_4 (q + 110 + k.length + 1) + e.data.length) :=
      recBytes_endPos q ino k e hino1 hm hu hg2 hrM hrm hdl hns
    have hform : pre ++ dumpEntries ((k, e) :: rest) q ino ++ tail =
        pre ++ (hdrBytes ino e.mode e.uid e.gid 1 0 e.data.length 0 0
          e.rdevmajor e.rdevminor (k.length + 1) 0 ++ (k ++ ([0] ++
          (zeros (align_4 (q + 110 + k.length + 1) - (q + 110 + k.length + 1)) ++
          (e.data ++ (zeros (align_4 (align_4 (q + 110 + k.length + 1) + e.data.length)
            - (align_4 (q + 110 + k.length + 1) + e.data.length)) ++
          (dumpEntries rest
            (align_4 (align_4 (q + 110 + k.length + 1) + e.data.length)) (ino + 1)
            ++ tail))))))) := by
      simp only [dumpEntries]
      rw [hend]
      rw [recBytes_chunks q ino k e hino1 hm hu hg2 hrM hrm hdl hns]
      simp only [List.append_assoc]
    rw [show fuel + List.length ((k, e) :: rest) + 1 = (fuel + rest.length + 1) + 1
      from by simp only [List.length_cons]; omega]
    rw [hform]
    rw [parse_record_core pre
      (dumpEntries rest (align_4 (align_4 (q + 110 + k.length + 1) + e.data.length))
        (ino + 1) ++ tail)
      k e acc q ino (fuel + rest.length + 1) _ _ hpre (by omega) (by omega)
      ⟨hne, hnul, hutf, hdot, hdotdot, htr, hm, hu, hg2, hrM, hrm, hdl, hns⟩ hino1]
    have hassoc : pre ++ (hdrBytes ino e.mode e.uid e.gid 1 0 e.data.length 0 0
          e.rdevmajor e.rdevminor (k.length + 1) 0 ++ (k ++ ([0] ++
          (zeros (align_4 (q + 110 + k.length + 1) - (q + 110 + k.length + 1)) ++
          (e.data ++ (zeros (align_4 (align_4 (q + 110 + k.length + 1) + e.data.length)
            - (align_4 (q + 110 + k.length + 1) + e.data.length)) ++
          (dumpEntries rest
            (align_4 (align_4 (q + 110 + k.length + 1) + e.data.length)) (ino + 1)
            ++ tail))))))) =
        (pre ++ recBytes q ino k e) ++ dumpEntries rest
          (align_4 (align_4 (q + 110 + k.length + 1) + e.data.length)) (ino + 1)
          ++ tail := by
      rw [recBytes_chunks q ino k e hino1 hm hu hg2 hrM hrm hdl hns]
      simp only [List.append_assoc]
    rw [hassoc]
    have hpre2 : (pre ++ recBytes q ino k e).length =
        align_4 (align_4 (q + 110 + k.length + 1) + e.data.length) := by
      rw [List.length_append, hpre]
      exact hend
    have hq42 : align_4 (align_4 (q + 110 + k.length + 1) + e.data.length) % 4 = 0 :=
      align_4_mod _
    have hino2 : ino + 1 + rest.length < 2 ^ 32 := by
      simp only [List.length_cons] at hino
      omega
    rw [ih (pre ++ recBytes q ino k e) tail (insertSorted k e acc)
      (align_4 (align_4 (q + 110 + k.length + 1) + e.data.length)) (ino + 1) fuel
      hpre2 hq42 hgoodrest hino2]
    have hlen2 : q + (dumpEntries ((k, e) :: rest) q ino).length =
        align_4 (align_4 (q + 110 + k.length + 1) + e.data.length) +
          (dumpEntries rest
            (align_4 (align_4 (q + 110 + k.length + 1) + e.data.length))
            (ino + 1)).length := by
      simp only [dumpEntries, List.length_append]
      rw [hend]
      omega
    rw [hlen2]
    simp only [insertList, List.foldl_cons]

theorem dumpEntries_length_ge (es : Entries) : ∀ pos ino, GoodE es →
    ino + es.length < 2 ^ 32 → es.length + 1 ≤ (dumpEntries es pos ino).length := by
  induction es with
  | nil =>
    intro pos ino hgood hino
    have h := trailerBytes_endPos pos ino (by simpa using hino)
    have h2 := le_align_4 (pos + 110 + 11)
    simp only [dumpEntries, List.length_nil]
    omega
  | cons kv rest ih =>
    intro pos ino hgood hino
    obtain ⟨k, e⟩ := kv
    obtain ⟨_, _, _, _, _, _, hm, hu, hg2, hrM, hrm, hdl, hns⟩ :=
      hgood (k, e) (by simp)
    have hino1 : ino < 2 ^ 32 := by simp only [List.length_cons] at hino; omega
    have hend := recBytes_endPos pos ino k e hino1 hm hu hg2 hrM hrm hdl hns
    have h1 := le_align_4 (pos + 110 + k.length + 1)
    have h2 := le_align_4 (align_4 (pos + 110 + k.length + 1) + e.data.length)
    have hrest := ih (pos + (recBytes pos ino k e).length) (ino + 1)
      (fun kv hkv => hgood kv (List.mem_cons_of_mem _ hkv))
      (by simp only [List.length_cons] at hino; omega)
    simp only [dumpEntries, List.length_append, List.length_cons]
    omega

/-- C1: parsing the byte stream produced by `dump` recovers the archive exactly. -/
theorem c1_round_trip (c : Cpio) (hs : SortedE c.entries) (hg : GoodE c.entries)
    (hN : 300000 + c.entries.length < 2 ^ 32) :
    load_from_data (Cpio.dump c) = .ok c := by
  unfold load_from_data Cpio.dump
  have hlen := dumpEntries_length_ge c.entries 0 300000 hg hN
  have hm := parse_dump_master c.entries [] [] [] 0 300000
    ((dumpEntries c.entries 0 300000).length - c.entries.length) rfl (by norm_num)
    hg hN
  simp only [List.append_nil, List.nil_append] at hm
  rw [show ((dumpEntries c.entries 0 300000).length - c.entries.length) +
    c.entries.length + 1 = (dumpEntries c.entries 0 300000).length + 1 from by omega]
    at hm
  have hfm : findMagic ([] : List Nat) = none := rfl
  rw [hfm] at hm
  have hins : insertList c.entries [] = c.entries := by
    have := insertList_sorted c.entries [] (by simpa using hs)
    simpa using this
  rw [hins] at hm
  rw [hm]

theorem dumpEntries_endPos_mod (es : Entries) : ∀ pos ino, GoodE es →
    ino + es.length < 2 ^ 32 →
    (pos + (dumpEntries es pos ino).length) % 4 = 0 := by
  induction es with
  | nil =>
    intro pos ino hgood hino
    simp only [dumpEntries]
    rw [trailerBytes_endPos pos ino (by simpa using hino)]
    exact align_4_mod _
  | cons kv rest ih =>
    intro pos ino hgood hino
    obtain ⟨k, e⟩ := kv
    have hrest := ih (pos + (recBytes pos ino k e).length) (ino + 1)
      (fun kv hkv => hgood kv (List.mem_cons_of_mem _ hkv))
      (by simp only [List.length_cons] at hino; omega)
    simp only [dumpEntries, List.length_append]
    omega

/-- C5 (amended): one well-formed archive, glue bytes of length a multiple of 4
that contain no premature magic, then a second well-formed archive parse to the
union of both archives' entries, the second overriding the first. -/
theorem c5_concatenated (a b : Cpio) (g : List Nat)
    (hsa : SortedE a.entries) (hga : GoodE a.entries)
    (hNa : 300000 + a.entries.length < 2 ^ 32)
    (hsb : SortedE b.entries) (hgb : GoodE b.entries)
    (hNb : 300000 + b.entries.length < 2 ^ 32)
    (hg4 : g.length % 4 = 0)
    (hmagic : findMagic (g ++ Cpio.dump b) = some g.length) :
    load_from_data (Cpio.dump a ++ g ++ Cpio.dump b) =
      .ok ⟨insertList b.entries a.entries⟩ ∧
    ∀ k, lookupE k (insertList b.entries a.entries) =
      match lookupE k b.entries with
      | some v => some v
      | none => lookupE k a.entries := by
  constructor
  · unfold load_from_data Cpio.dump
    unfold Cpio.dump at hmagic
    set DA := dumpEntries a.entries 0 300000 with hDA
    set DB := dumpEntries b.entries 0 300000 with hDB
    have hLa := dumpEntries_length_ge a.entries 0 300000 hga hNa
    have hLb := dumpEntries_length_ge b.entries 0 300000 hgb hNb
    rw [← hDA] at hLa
    rw [← hDB] at hLb
    have hmodA : (0 + DA.length) % 4 = 0 :=
      dumpEntries_endPos_mod a.entries 0 300000 hga hNa
    have hq2 : (DA.length + g.length) % 4 = 0 := by omega
    have hcongr : DB = dumpEntries b.entries (DA.length + g.length) 300000 := by
      rw [hDB]
      exact dumpEntries_congr b.entries 0 (DA.length + g.length) 300000 hgb hNb
        (by omega)
    have hm1 := parse_dump_master a.entries [] (g ++ DB) [] 0 300000
      ((DA ++ (g ++ DB)).length - a.entries.length) rfl (by norm_num) hga hNa
    simp only [List.nil_append, ← hDA] at hm1
    simp only [hmagic] at hm1
    have hins : insertList a.entries [] = a.entries := by
      have := insertList_sorted a.entries [] (by simpa using hsa)
      simpa using this
    rw [hins] at hm1
    rw [show (0 : Nat) + DA.length + g.length = DA.length + g.length from by omega]
      at hm1
    have hpre2 : (DA ++ g).length = DA.length + g.length := by
      simp [List.length_append]
    have hf2 : b.entries.length + 1 ≤ (DA ++ (g ++ DB)).length - a.entries.length := by
      simp only [List.length_append]
      omega
    have hm2 := parse_dump_master b.entries (DA ++ g) [] a.entries
      (DA.length + g.length) 300000
      ((DA ++ (g ++ DB)).length - a.entries.length - b.entries.length - 1)
      hpre2 hq2 hgb hNb
    rw [← hcongr] at hm2
    simp only [List.append_nil] at hm2
    have hfm : findMagic ([] : List Nat) = none := rfl
    simp only [hfm] at hm2
    rw [show (DA ++ g) ++ DB = DA ++ (g ++ DB) from by simp] at hm2
    rw [show (DA ++ (g ++ DB)).length - a.entries.length - b.entries.length - 1 +
        b.entries.length + 1 = (DA ++ (g ++ DB)).length - a.entries.length from by
      simp only [List.length_append]
      omega] at hm2
    rw [hm2] at hm1
    rw [show (DA ++ g) ++ DB = DA ++ (g ++ DB) from by simp]
    rw [show (DA ++ (g ++ DB)).length + 1 =
      ((DA ++ (g ++ DB)).length - a.entries.length) + a.entries.length + 1 from by
      simp only [List.length_append]
      omega]
    rw [hm1]
  · intro k
    exact lookupE_insertList b.entries a.entries k (sortedE_nodupKeys _ hsb)

theorem hdrBytes_eq_claimHeader (i m u g nl mt fs dM dm rM rm2 ns ck : Nat)
    (h1 : i < 2 ^ 32) (h2 : m < 2 ^ 32) (h3 : u < 2 ^ 32) (h4 : g < 2 ^ 32)
    (h5 : nl < 2 ^ 32) (h6 : mt < 2 ^ 32) (h7 : fs < 2 ^ 32) (h8 : dM < 2 ^ 32)
    (h9 : dm < 2 ^ 32) (h10 : rM < 2 ^ 32) (h11 : rm2 < 2 ^ 32)
    (h12 : ns < 2 ^ 32) (h13 : ck < 2 ^ 32) :
    hdrBytes i m u g nl mt fs dM dm rM rm2 ns ck =
      claimHeader i m u g nl mt fs dM dm rM rm2 ns ck := by
  unfold hdrBytes claimHeader
  rw [hex8_eq _ h1, hex8_eq _ h2, hex8_eq _ h3, hex8_eq _ h4, hex8_eq _ h5,
    hex8_eq _ h6, hex8_eq _ h7, hex8_eq _ h8, hex8_eq _ h9, hex8_eq _ h10,
    hex8_eq _ h11, hex8_eq _ h12, hex8_eq _ h13]

theorem dumpEntries_eq_claimRecords (es : Entries) : ∀ pos idx,
    (∀ kv ∈ es, kv.2.mode < 2 ^ 32 ∧ kv.2.uid < 2 ^ 32 ∧ kv.2.gid < 2 ^ 32 ∧
      kv.2.rdevmajor < 2 ^ 32 ∧ kv.2.rdevminor < 2 ^ 32 ∧
      kv.2.data.length < 2 ^ 32 ∧ kv.1.length + 1 < 2 ^ 32) →
    300000 + idx + es.length < 2 ^ 32 →
    dumpEntries es pos (300000 + idx) = claimRecords es pos idx := by
  induction es with
  | nil =>
    intro pos idx hb hN
    have hino : 300000 + idx < 2 ^ 32 := by simpa using hN
    have hhdr : (hdrBytes (300000 + idx) 0o755 0 0 1 0 0 0 0 0 0 11 0).length = 110 :=
      hdrBytes_length _ _ _ _ _ _ _ _ _ _ _ _ _ hino (by norm_num) (by norm_num)
        (by norm_num) (by norm_num) (by norm_num) (by norm_num) (by norm_num)
        (by norm_num) (by norm_num) (by norm_num) (by norm_num) (by norm_num)
    show trailerBytes pos (300000 + idx) = _
    simp only [trailerBytes, hhdr, claimRecords]
    rw [hdrBytes_eq_claimHeader _ _ _ _ _ _ _ _ _ _ _ _ _ hino (by norm_num)
      (by norm_num) (by norm_num) (by norm_num) (by norm_num) (by norm_num)
      (by norm_num) (by norm_num) (by norm_num) (by norm_num) (by norm_num)
      (by norm_num), pad4To_eq_align_4]
  | cons kv rest ih =>
    intro pos idx hb hN
    obtain ⟨k, e⟩ := kv
    obtain ⟨hm, hu, hg2, hrM, hrm, hdl, hns⟩ := hb (k, e) (by simp)
    have hino : 300000 + idx < 2 ^ 32 := by
      simp only [List.length_cons] at hN
      omega
    have hhdr : (hdrBytes (300000 + idx) e.mode e.uid e.gid 1 0 e.data.length 0 0
        e.rdevmajor e.rdevminor (k.length + 1) 0).length = 110 :=
      hdrBytes_length _ _ _ _ _ _ _ _ _ _ _ _ _ hino hm hu hg2 (by norm_num)
        (by norm_num) hdl (by norm_num) (by norm_num) hrM hrm hns (by norm_num)
    have hend := recBytes_endPos pos (300000 + idx) k e hino hm hu hg2 hrM hrm hdl hns
    have hrest : dumpEntries rest (pos + (recBytes pos (300000 + idx) k e).length)
        (300000 + idx + 1) = claimRecords rest
        (pad4To (pad4To (pos + 110 + k.length + 1) + e.data.length)) (idx + 1) := by
      rw [show 300000 + idx + 1 = 300000 + (idx + 1) from by omega]
      rw [hend, ← pad4To_eq_align_4, ← pad4To_eq_align_4]
      apply ih
      · intro kv hkv
        exact hb kv (List.mem_cons_of_mem _ hkv)
      · simp only [List.length_cons] at hN
        omega
    simp only [dumpEntries, claimRecords]
    rw [hrest]
    simp only [recBytes, hhdr]
    rw [hdrBytes_eq_claimHeader _ _ _ _ _ _ _ _ _ _ _ _ _ hino hm hu hg2
      (by norm_num) (by norm_num) hdl (by norm_num) (by norm_num) hrM hrm hns
      (by norm_num), pad4To_eq_align_4, pad4To_eq_align_4]

/-- C3: the byte stream `dump` writes matches the claimed layout exactly
(synthetic inodes from 300000, fixed nlink/mtime/dev/check fields, 8-digit
lowercase hex fields, 4-byte alignment padding, final `TRAILER!!!` record). -/
theorem c3_dump_layout (c : Cpio) (hs : SortedE c.entries)
    (hb : ∀ kv ∈ c.entries, kv.2.mode < 2 ^ 32 ∧ kv.2.uid < 2 ^ 32 ∧
      kv.2.gid < 2 ^ 32 ∧ kv.2.rdevmajor < 2 ^ 32 ∧ kv.2.rdevminor < 2 ^ 32 ∧
      kv.2.data.length < 2 ^ 32 ∧ kv.1.length + 1 < 2 ^ 32)
    (hN : 300000 + c.entries.length < 2 ^ 32) :
    Cpio.dump c = claimDump c := by
  unfold Cpio.dump claimDump
  rw [show (300000 : Nat) = 300000 + 0 from rfl]
  exact dumpEntries_eq_claimRecords c.entries 0 0 hb (by simpa using hN)

/-- C4: `x8u` succeeds exactly when all 8 bytes are ASCII hex digits (either
case) and the accumulated most-significant-first base-16 value fits the target
field width (`bound` = number of values of the target type); the value returned
is that accumulated value; a non-hex byte or an overflowing value yields the
fatal error `"bad cpio header"`. -/
theorem c4_x8u_spec (bound : Nat) (bs : List Nat) (h : bs.length = 8) :
    x8u bound bs =
      if (∀ b ∈ bs, (hexDigitVal? b).isSome) ∧ hexValMSB bs < bound
      then .ok (hexValMSB bs) else .error "bad cpio header" :=
  x8u_eq bound bs

/-- Witness for C4 at the concrete field `"0000002a"`. -/
theorem c4_x8u_spec_witness :
    ([48, 48, 48, 48, 48, 48, 50, 97] : List Nat).length = 8 ∧
    x8u (2 ^ 32) [48, 48, 48, 48, 48, 48, 50, 97] =
      (if (∀ b ∈ ([48, 48, 48, 48, 48, 48, 50, 97] : List Nat),
          (hexDigitVal? b).isSome) ∧
          hexValMSB [48, 48, 48, 48, 48, 48, 50, 97] < 2 ^ 32
      then .ok (hexValMSB [48, 48, 48, 48, 48, 48, 50, 97])
      else .error "bad cpio header") :=
  ⟨by decide, c4_x8u_spec (2 ^ 32) _ (by decide)⟩

/-- C2 is violated by the code: `load_from_data` does not bound the raw header
read and the payload slice.  On the 6-byte buffer `"070701"` it slices
`data[110..]` out of bounds; on a well-formed header whose `filesize` (255)
extends past the end of the buffer it slices `data[pos..pos + 255]` out of
bounds.  Both are panics / out-of-bounds reads (`crash`), not returned parse
errors. -/
theorem c2_unbounded_reads_crash :
    load_from_data [48, 55, 48, 55, 48, 49] = .crash ∧
    load_from_data (hdrBytes 0 0 0 0 0 0 255 0 0 0 0 2 0 ++ [97, 0]) = .crash := by
  constructor
  · decide
  · decide

theorem mem_insertSorted (k : Name) (v : CpioEntry) :
    ∀ l kv, kv ∈ insertSorted k v l → kv = (k, v) ∨ kv ∈ l := by
  intro l
  induction l with
  | nil =>
    intro kv h
    simp [insertSorted] at h
    exact Or.inl h
  | cons kv0 rest ih =>
    intro kv h
    obtain ⟨k', v'⟩ := kv0
    by_cases hlt : lexLt k k' = true
    · rw [insertSorted, if_pos hlt] at h
      rcases List.mem_cons.mp h with h1 | h1
      · exact Or.inl h1
      · exact Or.inr h1
    · by_cases heq : k = k'
      · rw [insertSorted, if_neg hlt, if_pos heq] at h
        rcases List.mem_cons.mp h with h1 | h1
        · exact Or.inl h1
        · exact Or.inr (List.mem_cons_of_mem _ h1)
      · rw [insertSorted, if_neg hlt, if_neg heq] at h
        rcases List.mem_cons.mp h with h1 | h1
        · exact Or.inr (by simp [h1])
        · rcases ih kv h1 with h2 | h2
          · exact Or.inl h2
          · exact Or.inr (List.mem_cons_of_mem _ h2)

theorem mem_removeE (k : Name) : ∀ l kv, kv ∈ removeE k l → kv ∈ l := by
  intro l
  induction l with
  | nil => intro kv h; exact absurd h (by simp [removeE])
  | cons kv0 rest ih =>
    intro kv h
    obtain ⟨k', v'⟩ := kv0
    by_cases he : k' = k
    · rw [removeE, if_pos he] at h
      exact List.mem_cons_of_mem _ h
    · rw [removeE, if_neg he] at h
      rcases List.mem_cons.mp h with h1 | h1
      · simp [h1]
      · exact List.mem_cons_of_mem _ (ih kv h1)

theorem parseLoop_keys (data : List Nat) : ∀ (fuel pos : Nat) (acc es : Entries),
    parseLoop data fuel pos acc = .ok es →
    (∀ kv ∈ acc, kv.1 ≠ dotB ∧ kv.1 ≠ dotdotB ∧ kv.1 ≠ trailerB) →
    ∀ kv ∈ es, kv.1 ≠ dotB ∧ kv.1 ≠ dotdotB ∧ kv.1 ≠ trailerB := by
  intro fuel
  induction fuel with
  | zero =>
    intro pos acc es h _
    exact absurd h (by simp [parseLoop])
  | succ n ih =>
    intro pos acc es h hacc
    rw [parseLoop] at h
    split at h
    · -- pos < data.length
      split at h
      · -- pos + 6 ≤ data.length
        split at h
        · -- magic matches
          split at h
          · -- pos + 110 ≤ data.length
            split at h
            · -- cstrUntilNul = none: fatal
              simp at h
            · -- some name
              rename_i name hcstr
              split at h
              · -- isUtf8
                split at h
                · -- x8u namesize error
                  simp at h
                · -- ok ns
                  rename_i ns hns
                  simp only [] at h
                  split at h
                  · -- name is "." or ".."
                    exact ih _ _ _ h hacc
                  · rename_i hdotor
                    split at h
                    · -- trailer
                      split at h
                      · -- pos2 ≤ len
                        split at h
                        · -- findMagic some
                          exact ih _ _ _ h hacc
                        · -- findMagic none: ok acc = ok es
                          injection h with h2
                          subst h2
                          exact hacc
                      · simp at h
                    · rename_i htrail
                      split at h
                      · simp at h
                      · rename_i fs hfs
                        split at h
                        · simp at h
                        · rename_i mode hmode
                          split at h
                          · simp at h
                          · rename_i uid huid
                            split at h
                            · simp at h
                            · rename_i gid hgid
                              split at h
                              · simp at h
                              · rename_i rM hrM
                                split at h
                                · simp at h
                                · rename_i rm2 hrm2
                                  split at h
                                  · -- payload in bounds: insert and recurse
                                    refine ih _ _ _ h ?_
                                    intro kv hkv
                                    rcases mem_insertSorted _ _ _ kv hkv with h1 | h1
                                    · rw [h1]
                                      exact ⟨fun e => hdotor (Or.inl e),
                                        fun e => hdotor (Or.inr e), htrail⟩
                                    · exact hacc kv h1
                                  · simp at h
              · simp at h
          · simp at h
        · simp at h
      · simp at h
    · -- loop exit: ok acc = ok es
      injection h with h2
      subst h2
      exact hacc

/-- C6 (amended): archives reachable from the empty archive or from a successful
parse by the entry operations — with the inserting operations restricted to
normalized targets that avoid the reserved names — never store a key equal to
`"."`, `".."` or `"TRAILER!!!"`.  (Parsing stores all other names verbatim, so
stored keys are not necessarily normalized; see the counterexample.) -/
theorem c6_reachable_keys (c : Cpio) (h : Reachable c) :
    ∀ kv ∈ c.entries, kv.1 ≠ dotB ∧ kv.1 ≠ dotdotB ∧ kv.1 ≠ trailerB := by
  induction h with
  | new =>
    intro kv hkv
    exact absurd hkv (by simp [Cpio.new])
  | load data c2 hload =>
    intro kv hkv
    unfold load_from_data at hload
    cases hp : parseLoop data (data.length + 1) 0 [] with
    | ok es =>
      simp only [hp] at hload
      injection hload with h2
      subst h2
      exact parseLoop_keys data (data.length + 1) 0 [] es hp (by simp) kv hkv
    | fatal m =>
      simp only [hp] at hload
      exact absurd hload (by simp)
    | crash =>
      simp only [hp] at hload
      exact absurd hload (by simp)
  | rm c2 p r hc2 ih =>
    intro kv hkv
    simp only [Cpio.rm] at hkv
    cases r with
    | false =>
      rw [if_neg (by simp)] at hkv
      exact ih kv (mem_removeE _ _ kv hkv)
    | true =>
      rw [if_pos rfl] at hkv
      exact ih kv (mem_removeE _ _ kv (List.mem_filter.mp hkv).1)
  | mv c2 c2' f t hc2 hmv ht1 ht2 ht3 ih =>
    intro kv hkv
    unfold Cpio.mv at hmv
    cases hl : lookupE (norm_path f) c2.entries with
    | none =>
      simp only [hl] at hmv
      exact absurd hmv (by simp)
    | some e0 =>
      simp only [hl] at hmv
      injection hmv with h2
      subst h2
      rcases mem_insertSorted _ _ _ kv hkv with h1 | h1
      · rw [h1]
        exact ⟨ht1, ht2, ht3⟩
      · exact ih kv (mem_removeE _ _ kv h1)
  | mkdir c2 m d hc2 hd1 hd2 hd3 ih =>
    intro kv hkv
    simp only [Cpio.mkdir] at hkv
    rcases mem_insertSorted _ _ _ kv hkv with h1 | h1
    · rw [h1]
      exact ⟨hd1, hd2, hd3⟩
    · exact ih kv h1
  | ln c2 s d hc2 hd1 hd2 hd3 ih =>
    intro kv hkv
    simp only [Cpio.ln] at hkv
    rcases mem_insertSorted _ _ _ kv hkv with h1 | h1
    · rw [h1]
      exact ⟨hd1, hd2, hd3⟩
    · exact ih kv h1
  | add c2 c2' m p content ft rM rm hc2 hadd hp1 hp2 hp3 ih =>
    intro kv hkv
    unfold Cpio.add at hadd
    split at hadd
    · simp at hadd
    · cases ft with
      | regular =>
        injection hadd with h2
        subst h2
        rcases mem_insertSorted _ _ _ kv hkv with h1 | h1
        · rw [h1]
          exact ⟨hp1, hp2, hp3⟩
        · exact ih kv h1
      | block =>
        injection hadd with h2
        subst h2
        rcases mem_insertSorted _ _ _ kv hkv with h1 | h1
        · rw [h1]
          exact ⟨hp1, hp2, hp3⟩
        · exact ih kv h1
      | char =>
        injection hadd with h2
        subst h2
        rcases mem_insertSorted _ _ _ kv hkv with h1 | h1
        · rw [h1]
          exact ⟨hp1, hp2, hp3⟩
        · exact ih kv h1
      | other => simp at hadd

set_option maxRecDepth 1000000 in
/-- C6 as stated is false: `mkdir` with path `"."` stores the key `"."`, and
parsing stores the non-normalized name `"a/"` verbatim (trailing slash kept). -/
theorem c6_counterexample :
    (Cpio.new.mkdir 493 [46]).entries.map Prod.fst = [[46]] ∧
    load_from_data (Cpio.dump ⟨[([97, 47], ⟨16877, 0, 0, 0, 0, []⟩)]⟩) =
      .ok ⟨[([97, 47], ⟨16877, 0, 0, 0, 0, []⟩)]⟩ := by
  constructor
  · decide
  · decide

/-- Witness for C6 at a concrete reachable archive (`mkdir 0o755 "a"`). -/
theorem c6_reachable_keys_witness :
    (([97], (⟨16877, 0, 0, 0, 0, []⟩ : CpioEntry)) : Name × CpioEntry).1 ≠ dotB ∧
    (([97], (⟨16877, 0, 0, 0, 0, []⟩ : CpioEntry)) : Name × CpioEntry).1 ≠ dotdotB ∧
    (([97], (⟨16877, 0, 0, 0, 0, []⟩ : CpioEntry)) : Name × CpioEntry).1 ≠ trailerB :=
  c6_reachable_keys (Cpio.new.mkdir 493 [97])
    (Reachable.mkdir Cpio.new 493 [97] Reachable.new (by decide) (by decide)
      (by decide))
    ([97], ⟨16877, 0, 0, 0, 0, []⟩) (by decide)

set_option maxRecDepth 1000000 in
/-- C5 as stated is false: with a single glue byte (which contains no premature
magic: the first magic occurrence in `glue ++ second` is at offset 1, the start
of the second archive) the second segment is misaligned and parsing fails with
`"invalid cpio magic"` instead of yielding the union. -/
theorem c5_counterexample :
    findMagic ([0] ++ Cpio.dump ⟨[([97], ⟨16877, 0, 0, 0, 0, []⟩)]⟩) = some 1 ∧
    load_from_data (Cpio.dump ⟨[]⟩ ++ [0] ++
      Cpio.dump ⟨[([97], ⟨16877, 0, 0, 0, 0, []⟩)]⟩) =
      .fatal "invalid cpio magic" := by
  constructor
  · decide
  · decide

set_option maxRecDepth 1000000 in
/-- Witness for C1 at a concrete two-entry archive. -/
theorem c1_round_trip_witness :
    load_from_data (Cpio.dump ⟨[([97], ⟨16877, 0, 0, 0, 0, []⟩),
        ([98], ⟨33188, 0, 0, 0, 0, [104, 105]⟩)]⟩) =
      .ok ⟨[([97], ⟨16877, 0, 0, 0, 0, []⟩),
        ([98], ⟨33188, 0, 0, 0, 0, [104, 105]⟩)]⟩ :=
  c1_round_trip _ (by unfold SortedE; decide) (by unfold GoodE GoodEntry; decide) (by decide)

set_option maxRecDepth 1000000 in
/-- Witness for C3 at a concrete one-entry archive. -/
theorem c3_dump_layout_witness :
    Cpio.dump ⟨[([97], ⟨16877, 0, 0, 0, 0, [104]⟩)]⟩ =
      claimDump ⟨[([97], ⟨16877, 0, 0, 0, 0, [104]⟩)]⟩ :=
  c3_dump_layout _ (by unfold SortedE; decide) (by decide) (by decide)

set_option maxRecDepth 1000000 in
/-- Witness for the amended C5 at two concrete archives with 4 glue bytes. -/
theorem c5_concatenated_witness :
    load_from_data (Cpio.dump ⟨[([98], ⟨16877, 0, 0, 0, 0, []⟩)]⟩ ++ [1, 1, 1, 1] ++
        Cpio.dump ⟨[([97], ⟨16877, 0, 0, 0, 0, []⟩)]⟩) =
      .ok ⟨insertList [([97], ⟨16877, 0, 0, 0, 0, []⟩)]
        [([98], ⟨16877, 0, 0, 0, 0, []⟩)]⟩ :=
  (c5_concatenated ⟨[([98], ⟨16877, 0, 0, 0, 0, []⟩)]⟩
    ⟨[([97], ⟨16877, 0, 0, 0, 0, []⟩)]⟩ [1, 1, 1, 1]
    (by unfold SortedE; decide) (by unfold GoodE GoodEntry; decide) (by decide)
    (by unfold SortedE; decide) (by unfold GoodE GoodEntry; decide) (by decide)
    (by decide) (by decide)).1

/-- C7 as stated is false for `add`: with the trailing-slash spelling it fails
with an error, while the bare spelling inserts at `"foo/bar"`. -/
theorem c7_counterexample :
    Cpio.add Cpio.new 420 [47, 102, 111, 111, 47, 98, 97, 114, 47] [104]
      .regular 0 0 = none ∧
    Cpio.add Cpio.new 420 [102, 111, 111, 47, 98, 97, 114] [104] .regular 0 0 =
      some ⟨[([102, 111, 111, 47, 98, 97, 114], ⟨33188, 0, 0, 0, 0, [104]⟩)]⟩ := by
  constructor
  · decide
  · decide

/-- C7 (amended): `mkdir`, `ln` and `mv` treat `"/foo/bar/"` and `"foo/bar"` as
the identical stored key `"foo/bar"`; `add` normalizes a leading slash the same
way (`"/foo/bar"` behaves like `"foo/bar"`), but rejects any trailing-slash
path with an error instead of operating on the stripped key. -/
theorem c7_normalization (c : Cpio) (mode : Nat) (src : Name)
    (content : List Nat) (ft : FileType) (rM rm2 : Nat) :
    c.mkdir mode [47, 102, 111, 111, 47, 98, 97, 114, 47] =
      c.mkdir mode [102, 111, 111, 47, 98, 97, 114] ∧
    c.ln src [47, 102, 111, 111, 47, 98, 97, 114, 47] =
      c.ln src [102, 111, 111, 47, 98, 97, 114] ∧
    c.mv [47, 102, 111, 111, 47, 98, 97, 114, 47] src =
      c.mv [102, 111, 111, 47, 98, 97, 114] src ∧
    c.mv src [47, 102, 111, 111, 47, 98, 97, 114, 47] =
      c.mv src [102, 111, 111, 47, 98, 97, 114] ∧
    c.add mode [47, 102, 111, 111, 47, 98, 97, 114] content ft rM rm2 =
      c.add mode [102, 111, 111, 47, 98, 97, 114] content ft rM rm2 ∧
    c.add mode [47, 102, 111, 111, 47, 98, 97, 114, 47] content ft rM rm2 =
      none := by
  have hn : norm_path [47, 102, 111, 111, 47, 98, 97, 114, 47] =
      norm_path [102, 111, 111, 47, 98, 97, 114] := by decide
  have hn2 : norm_path [47, 102, 111, 111, 47, 98, 97, 114] =
      norm_path [102, 111, 111, 47, 98, 97, 114] := by decide
  refine ⟨?_, ?_, ?_, ?_, ?_, ?_⟩
  · unfold Cpio.mkdir
    rw [hn]
  · unfold Cpio.ln
    rw [hn]
  · unfold Cpio.mv
    rw [hn]
  · unfold Cpio.mv
    rw [hn]
  · unfold Cpio.add
    rw [if_neg (by decide), if_neg (by decide), hn2]
  · unfold Cpio.add
    rw [if_pos (by decide)]

/-- C8 as stated is false in its example: on the archive `{a, a/b, a/bc}`,
removing `"a"` recursively also deletes `"a/bc"`, because `"a/bc"` does start
with the prefix `"a/"` that the code matches against — the entry is gone
(lookup yields `none`), not left in place as the claim asserts. -/
theorem c8_counterexample :
    List.isPrefixOf (norm_path [97] ++ [47]) [97, 47, 98, 99] = true ∧
    lookupE [97, 47, 98, 99] (((⟨[([97], ⟨16877, 0, 0, 0, 0, []⟩),
        ([97, 47, 98], ⟨16877, 0, 0, 0, 0, []⟩),
        ([97, 47, 98, 99], ⟨16877, 0, 0, 0, 0, []⟩)]⟩ : Cpio)).rm [97]
      true).entries = none := by
  constructor
  · decide
  · decide

/-- C8 (amended): recursive removal deletes the exact normalized path and
exactly the keys extending it across a `/` boundary (prefix `path + "/"`), so
on `{a, a/b, a/bc}` removing `"a"` recursively deletes all three entries (a key
like `"ab"` without the separator would survive); everything else is untouched,
and the operation never fails (it is total). -/
theorem c8_rm_recursive (c : Cpio) (p : Name) (hs : SortedE c.entries) (k : Name) :
    lookupE k (c.rm p true).entries =
      if k = norm_path p ∨ (norm_path p ++ [47]).isPrefixOf k then none
      else lookupE k c.entries := by
  unfold Cpio.rm
  rw [if_pos rfl]
  show lookupE k ((removeE (norm_path p) c.entries).filter
    (fun kv => !(List.isPrefixOf (norm_path p ++ [47]) kv.1))) = _
  rw [lookupE_filter (fun x => !(List.isPrefixOf (norm_path p ++ [47]) x)) k _]
  by_cases hpre : List.isPrefixOf (norm_path p ++ [47]) k = true
  · rw [if_neg (by simp [hpre]), if_pos (Or.inr hpre)]
  · rw [if_pos (by simp [hpre])]
    by_cases hk : k = norm_path p
    · subst hk
      rw [lookupE_removeE_self (norm_path p) c.entries (sortedE_nodupKeys _ hs),
        if_pos (Or.inl rfl)]
    · rw [lookupE_removeE_ne k _ hk c.entries,
        if_neg (by
          intro hc
          rcases hc with hc | hc
          · exact hk hc
          · exact hpre hc)]

/-- Witness for C8 on the claim's own example `{a, a/b, a/bc}`, removing `a`
recursively and looking up `a/bc`. -/
theorem c8_rm_recursive_witness :
    lookupE [97, 47, 98, 99] (((⟨[([97], ⟨16877, 0, 0, 0, 0, []⟩),
        ([97, 47, 98], ⟨16877, 0, 0, 0, 0, []⟩),
        ([97, 47, 98, 99], ⟨16877, 0, 0, 0, 0, []⟩)]⟩ : Cpio)).rm [97] true).entries =
      if [97, 47, 98, 99] = norm_path [97] ∨
          (norm_path [97] ++ [47]).isPrefixOf [97, 47, 98, 99] then none
      else lookupE [97, 47, 98, 99] [([97], ⟨16877, 0, 0, 0, 0, []⟩),
        ([97, 47, 98], ⟨16877, 0, 0, 0, 0, []⟩),
        ([97, 47, 98, 99], ⟨16877, 0, 0, 0, 0, []⟩)] :=
  c8_rm_recursive ⟨[([97], ⟨16877, 0, 0, 0, 0, []⟩),
    ([97, 47, 98], ⟨16877, 0, 0, 0, 0, []⟩),
    ([97, 47, 98, 99], ⟨16877, 0, 0, 0, 0, []⟩)]⟩ [97] (by unfold SortedE; decide)
    [97, 47, 98, 99]

/-- C9: `mkdir`, `ln` and a successful `add` change the archive only at the
single normalized target key; `mv` changes only the normalized `from`/`to` keys
and fails exactly when `from` is absent, leaving the archive unchanged (the
model's `mv` returns `none` without touching the entries). -/
theorem c9_frame (c : Cpio) (k : Name) :
    (∀ mode dir, k ≠ norm_path dir →
      lookupE k (c.mkdir mode dir).entries = lookupE k c.entries) ∧
    (∀ src dst, k ≠ norm_path dst →
      lookupE k (c.ln src dst).entries = lookupE k c.entries) ∧
    (∀ mode path content ft rM rm2 c', c.add mode path content ft rM rm2 = some c' →
      k ≠ norm_path path → lookupE k c'.entries = lookupE k c.entries) ∧
    (∀ f t c', c.mv f t = some c' → k ≠ norm_path f → k ≠ norm_path t →
      lookupE k c'.entries = lookupE k c.entries) ∧
    (∀ f t, c.mv f t = none ↔ lookupE (norm_path f) c.entries = none) := by
  refine ⟨?_, ?_, ?_, ?_, ?_⟩
  · intro mode dir hk
    exact lookupE_insertSorted_ne k _ _ hk _
  · intro src dst hk
    exact lookupE_insertSorted_ne k _ _ hk _
  · intro mode path content ft rM rm2 c' hadd hk
    unfold Cpio.add at hadd
    split at hadd
    · exact absurd hadd (by simp)
    · cases ft with
      | regular =>
        injection hadd with h2
        subst h2
        exact lookupE_insertSorted_ne k _ _ hk _
      | block =>
        injection hadd with h2
        subst h2
        exact lookupE_insertSorted_ne k _ _ hk _
      | char =>
        injection hadd with h2
        subst h2
        exact lookupE_insertSorted_ne k _ _ hk _
      | other => exact absurd hadd (by simp)
  · intro f t c' hmv hkf hkt
    unfold Cpio.mv at hmv
    cases hl : lookupE (norm_path f) c.entries with
    | none =>
      simp only [hl] at hmv
      exact absurd hmv (by simp)
    | some e0 =>
      simp only [hl] at hmv
      injection hmv with h2
      subst h2
      rw [lookupE_insertSorted_ne k _ _ hkt, lookupE_removeE_ne k _ hkf]
  · intro f t
    unfold Cpio.mv
    cases hl : lookupE (norm_path f) c.entries with
    | none => simp [hl]
    | some e0 => simp [hl]

/-- Witness for C9: `mkdir 0o755 "a"` leaves the entry at `"b"` unchanged. -/
theorem c9_frame_witness :
    lookupE [98] ((⟨[([98], ⟨1, 2, 3, 4, 5, [6]⟩)]⟩ : Cpio).mkdir 493 [97]).entries =
      lookupE [98] (⟨[([98], ⟨1, 2, 3, 4, 5, [6]⟩)]⟩ : Cpio).entries :=
  (c9_frame ⟨[([98], ⟨1, 2, 3, 4, 5, [6]⟩)]⟩ [98]).1 493 [97] (by decide)

/-- C10: the dispatcher's extract arm fails with `"invalid arguments"` for any
non-empty path list whose length is not 2, before calling `extract`; and any
successful outcome returns the archive unchanged. -/
theorem c10_extract_args (c : Cpio) (paths : List Name) :
    (paths ≠ [] → paths.length ≠ 2 →
      extractCommand c paths = .error "invalid arguments") ∧
    (∀ c' r, extractCommand c paths = .ok (c', r) → c' = c) := by
  constructor
  · intro h1 h2
    unfold extractCommand
    rw [if_pos ⟨h1, h2⟩]
  · intro c' r h
    unfold extractCommand at h
    split at h
    · exact absurd h (by simp)
    · injection h with h2
      rw [Prod.mk.injEq] at h2
      exact h2.1.symm

/-- Witness for C10 with exactly one path argument. -/
theorem c10_extract_args_witness :
    extractCommand ⟨[]⟩ [[97]] = .error "invalid arguments" :=
  (c10_extract_args ⟨[]⟩ [[97]]).1 (by decide) (by decide)
